import Mathlib

/-!
Verification of the waterway routing core (`src/utils/routing.ts`).

Conventions of the embedding:
* JavaScript numbers are modelled exactly: coordinates and all quantities
  produced by rational arithmetic live in `ℚ`; quantities produced by the
  transcendental `haversine` live in `ℝ`; the `Infinity` sentinel used by the
  nearest-segment scan and by Dijkstra is `⊤` in `WithTop ℝ`.
* JavaScript `Map`s are association lists in insertion order: `set` on a fresh
  key appends, access is first-match lookup, in-place value mutation is
  `alistSet` (update of the first matching entry).
* `toFixed(6)` is modelled by `fix6`: the sign is recorded separately (so the
  strings "-0.000000" and "0.000000" stay distinct) and the magnitude is
  rounded half-up on the absolute value, as specified for `Number.toFixed`.
* `parseFloat` of a width tag is modelled by an `Option ℚ` field: `none`
  stands for an absent tag, an empty string, or a NaN parse; `some w` for a
  successful parse of the value `w`.
-/

namespace VaarPro

open Real

/-! ## Geodesy primitives -/

/-- Earth radius in meters, the constant `R` of the source. -/
def Rearth : ℝ := 6371000

/-- Degree to radian conversion, `toRad` of the source. -/
noncomputable def toRad (d : ℝ) : ℝ := d * Real.pi / 180

/-- Haversine great-circle distance in meters between two `[lat, lon]`
coordinates, as computed by `haversine` of the source. -/
noncomputable def haversine (a b : ℚ × ℚ) : ℝ :=
  let lat1 : ℝ := (a.1 : ℝ); let lon1 : ℝ := (a.2 : ℝ)
  let lat2 : ℝ := (b.1 : ℝ); let lon2 : ℝ := (b.2 : ℝ)
  let dLat := toRad (lat2 - lat1); let dLon := toRad (lon2 - lon1)
  let s := Real.sin (dLat / 2) ^ 2 +
    Real.cos (toRad lat1) * Real.cos (toRad lat2) * Real.sin (dLon / 2) ^ 2
  2 * Rearth * Real.arcsin (Real.sqrt s)

/-- Closest point to `p` on the segment `a`-`b` in the flat (lon, lat) plane,
returning `(lat, lon, t)`, as computed by `nearestPointOnSegment`. -/
def nearestPointOnSegment (p a b : ℚ × ℚ) : ℚ × ℚ × ℚ :=
  let A := (a.2, a.1); let B := (b.2, b.1); let P := (p.2, p.1)
  let AB := (B.1 - A.1, B.2 - A.2)
  let AP := (P.1 - A.1, P.2 - A.2)
  let ab2 := AB.1 * AB.1 + AB.2 * AB.2
  let t := if ab2 ≠ 0 then max 0 (min 1 ((AP.1 * AB.1 + AP.2 * AB.2) / ab2)) else 0
  let Q := (A.1 + t * AB.1, A.2 + t * AB.2)
  (Q.2, Q.1, t)

/-! ## Graph model -/

/-- One coordinate rendered by `toFixed(6)`: the sign flag and the rounded
magnitude in micro-degrees (rounding half-up on the absolute value). -/
def fix6 (x : ℚ) : Bool × ℕ := (decide (x < 0), (⌊|x| * 1000000 + 1 / 2⌋).toNat)

/-- The deduplication key of the source's template string of the two
`toFixed(6)` renderings. -/
def coordKey (lat lon : ℚ) : (Bool × ℕ) × (Bool × ℕ) := (fix6 lat, fix6 lon)

/-- A segment record `{a, b, idA, idB}`. -/
structure Seg where
  a : ℚ × ℚ
  b : ℚ × ℚ
  idA : ℕ
  idB : ℕ

/-- The graph structure of the source: dedup map, coordinate map, adjacency
map and the flat segment list, each map in insertion order. -/
structure Graph where
  nextId : ℕ
  nodes : List (((Bool × ℕ) × (Bool × ℕ)) × ℕ)
  coords : List (ℕ × (ℚ × ℚ))
  adj : List (ℕ × List (ℕ × ℝ))
  segments : List Seg

/-- First-match association-list lookup (JavaScript `Map.get`). -/
def alistGet? {κ β : Type} [DecidableEq κ] (k : κ) : List (κ × β) → Option β
  | [] => none
  | (k', v) :: rest => if k' = k then some v else alistGet? k rest

/-- In-place mutation of the value stored under a key (no-op when the key is
absent, which the source rules out with `!` assertions). -/
def alistSet {κ β : Type} [DecidableEq κ] (k : κ) (f : β → β) : List (κ × β) → List (κ × β)
  | [] => []
  | (k', v) :: rest => if k' = k then (k', f v) :: rest else (k', v) :: alistSet k f rest

/-- `graphAddNode` of the source: return the existing id when the rounded key
is present, otherwise allocate `nextId`, store the coordinate and an empty
adjacency list. -/
def graphAddNode (lat lon : ℚ) (g : Graph) : ℕ × Graph :=
  let key := coordKey lat lon
  match alistGet? key g.nodes with
  | some id => (id, g)
  | none =>
      (g.nextId,
        { nextId := g.nextId + 1
          nodes := g.nodes ++ [(key, g.nextId)]
          coords := g.coords ++ [(g.nextId, (lat, lon))]
          adj := g.adj ++ [(g.nextId, [])]
          segments := g.segments })

/-- `graphAddEdge` of the source: weight by haversine of the stored
coordinates, symmetric push onto both adjacency lists, append a segment. -/
noncomputable def graphAddEdge (idA idB : ℕ) (g : Graph) : Graph :=
  let a := (alistGet? idA g.coords).getD (0, 0)
  let b := (alistGet? idB g.coords).getD (0, 0)
  let d := haversine a b
  { g with
    adj := alistSet idB (fun l => l ++ [(idA, d)])
      (alistSet idA (fun l => l ++ [(idB, d)]) g.adj)
    segments := g.segments ++ [⟨a, b, idA, idB⟩] }

/-- The empty graph the builder starts from (`nextId` starts at 1). -/
def emptyGraph : Graph := ⟨1, [], [], [], []⟩

/-! ## Graph builder -/

/-- A geometry vertex `{lat, lon}` of an input element. -/
structure LatLon where
  lat : ℚ
  lon : ℚ

/-- The tags the builder reads. `width` is the `parseFloat` of the width tag
(`none` for an absent tag, an empty string, or a NaN parse); the three
accessibility tags are the raw strings (`none` when absent). -/
structure Tags where
  waterway : Option String
  width : Option ℚ
  boat : Option String
  motorboat : Option String
  ship : Option String

/-- An input element of the Overpass payload. -/
structure Element where
  type : String
  geometry : Option (List LatLon)
  tags : Option Tags

/-- JavaScript truthiness of an optional tag string: present and non-empty. -/
def tagTruthy : Option String → Bool
  | none => false
  | some s => decide (s ≠ "")

/-- Truthiness of the parsed width (`0` and NaN are falsy in the source). -/
def widthTruthy : Option ℚ → Bool
  | none => false
  | some w => decide (w ≠ 0)

/-- The enumerated navigable set of the source (`navigableTypes`). -/
def navigableTypes : List String := ["canal", "river", "fairway", "shipyard", "navigation"]

/-- The river skip condition of the source: small declared width with none of
the three accessibility tags present (any truthy value counts as present), or
any accessibility tag equal to the string "no". -/
def riverSkip (tags : Option Tags) : Bool :=
  let width := tags.bind Tags.width
  let boat := tags.bind Tags.boat
  let motorboat := tags.bind Tags.motorboat
  let ship := tags.bind Tags.ship
  (widthTruthy width && decide (width.getD 0 < 10) &&
    !tagTruthy boat && !tagTruthy motorboat && !tagTruthy ship) ||
  (decide (boat = some "no") || decide (motorboat = some "no") || decide (ship = some "no"))

/-- The per-feature vertex loop of the builder: add a node for every vertex
and an edge between each consecutive pair. The source first maps the geometry
to `[lon, lat]` pairs and then reads `lat` from index 1 and `lon` from
index 0. -/
noncomputable def addVertices : Option ℕ → List (ℚ × ℚ) → Graph → Graph
  | _, [], g => g
  | prevId, c :: rest, g =>
      let lat := c.2; let lon := c.1
      let p := graphAddNode lat lon g
      let g2 := match prevId with
        | none => p.2
        | some prev => graphAddEdge prev p.1 p.2
      addVertices (some p.1) rest g2

/-- Processing of one input element: the way/geometry guard, the navigable
type filter and the river filter, then the vertex loop. -/
noncomputable def buildStep (g : Graph) (el : Element) : Graph :=
  if el.type = "way" then
    match el.geometry with
    | none => g
    | some verts =>
        if 2 ≤ verts.length then
          let waterwayType := el.tags.bind Tags.waterway
          if tagTruthy waterwayType && decide (waterwayType.getD "" ∈ navigableTypes) then
            if waterwayType.getD "" = "river" && riverSkip el.tags then g
            else addVertices none (verts.map (fun v => (v.lon, v.lat))) g
          else g
        else g
  else g

/-- One whole pass of the builder over the element list, without batching. -/
noncomputable def buildPass (els : List Element) : Graph := els.foldl buildStep emptyGraph

/-- The batched builder loop (`step` of the source): process `batch` elements,
then yield and continue on the rest. The fuel argument only serves
termination; `buildGraphFromWaterways` supplies enough fuel to process every
element whenever `1 ≤ batch`. -/
noncomputable def buildBatchedAux (batch : ℕ) : ℕ → List Element → Graph → Graph
  | 0, _, g => g
  | _, [], g => g
  | fuel + 1, els, g =>
      buildBatchedAux batch fuel (els.drop batch) ((els.take batch).foldl buildStep g)

/-- The batched builder with a tunable batch size. -/
noncomputable def buildBatched (batch : ℕ) (els : List Element) : Graph :=
  buildBatchedAux batch els.length els emptyGraph

/-- The batch size constant of the source. -/
def BATCH : ℕ := 200

/-- `buildGraphFromWaterways` of the source (the resolved promise value). -/
noncomputable def buildGraphFromWaterways (els : List Element) : Graph :=
  buildBatched BATCH els

/-! ## Endpoint snapper -/

/-- The scan accumulator `nearest` of `findNearestGraphNode`; `dist` starts at
`Infinity`, modelled by `⊤`. -/
structure NearestAcc where
  dist : WithTop ℝ
  id : Option ℕ
  proj : ℚ × ℚ
  idA : Option ℕ
  idB : Option ℕ
  t : ℚ

/-- The linear scan over segments retaining the minimum-distance candidate. -/
noncomputable def scanSegments (target : ℚ × ℚ) (segs : List Seg) (acc : NearestAcc) :
    NearestAcc :=
  segs.foldl (fun acc seg =>
    let pr := nearestPointOnSegment target seg.a seg.b
    let d := haversine target (pr.1, pr.2.1)
    if (d : WithTop ℝ) < acc.dist then
      { dist := (d : WithTop ℝ), id := none, proj := (pr.1, pr.2.1),
        idA := some seg.idA, idB := some seg.idB, t := pr.2.2 }
    else acc) acc

/-- The linear scan over all nodes used in non-snapping mode. -/
noncomputable def scanCoords (target : ℚ × ℚ) (coords : List (ℕ × (ℚ × ℚ)))
    (acc : NearestAcc) : NearestAcc :=
  coords.foldl (fun acc p =>
    let d := haversine target p.2
    if (d : WithTop ℝ) < acc.dist then
      { dist := (d : WithTop ℝ), id := some p.1, proj := p.2,
        idA := none, idB := none, t := 0 }
    else acc) acc

/-- The result record `{id, snapped, at}` of `findNearestGraphNode`. -/
structure SnapResult where
  id : ℕ
  snapped : Bool
  atPt : ℚ × ℚ

/-- The mutation block of the snapping branch: add (or fetch) the node at the
projected coordinate, clear its adjacency list, and push the four arcs between
it and the two endpoints of the matched segment. -/
noncomputable def snapSplice (proj : ℚ × ℚ) (idA idB : ℕ) (g : Graph) : ℕ × Graph :=
  let p := graphAddNode proj.1 proj.2 g
  let tempId := p.1
  let g2 := { p.2 with adj := alistSet tempId (fun _ => []) p.2.adj }
  let dA := haversine proj ((alistGet? idA g2.coords).getD (0, 0))
  let dB := haversine proj ((alistGet? idB g2.coords).getD (0, 0))
  let g3 := { g2 with adj := alistSet tempId (fun l => l ++ [(idA, dA)]) g2.adj }
  let g4 := { g3 with adj := alistSet idA (fun l => l ++ [(tempId, dA)]) g3.adj }
  let g5 := { g4 with adj := alistSet tempId (fun l => l ++ [(idB, dB)]) g4.adj }
  let g6 := { g5 with adj := alistSet idB (fun l => l ++ [(tempId, dB)]) g5.adj }
  (tempId, g6)

/-- `findNearestGraphNode` of the source. The function mutates the graph in
snapping mode, so the embedding returns the result together with the graph:
splice a node at the projected point of the best segment (clearing whatever
adjacency list that node had) and connect it to the segment's endpoints. -/
noncomputable def findNearestGraphNode (latlng : ℚ × ℚ) (g : Graph) (snap : Bool) :
    Option SnapResult × Graph :=
  let target := latlng
  let init : NearestAcc := ⟨⊤, none, target, none, none, 0⟩
  if snap && !g.segments.isEmpty then
    let nearest := scanSegments target g.segments init
    match nearest.idA, nearest.idB with
    | some idA, some idB =>
        let s := snapSplice nearest.proj idA idB g
        (some ⟨s.1, true, nearest.proj⟩, s.2)
    | _, _ => (none, g)
  else
    let nearest := scanCoords target g.coords init
    match nearest.id with
    | some id => (some ⟨id, false, nearest.proj⟩, g)
    | none => (none, g)

/-! ## Shortest-path solver -/

/-- The adjacency row of a node in the flattened arrays (`adj[u] || []`). -/
def adjOf (g : Graph) (u : ℕ) : List (ℕ × ℝ) := (alistGet? u g.adj).getD []

/-- The mutable state of the Dijkstra loop: the three arrays of length
`N + 1`, with `⊤` for `Infinity` in `dist`, `0` for an unset predecessor and
`false` for unvisited. -/
structure DijkstraState where
  dist : List (WithTop ℝ)
  prev : List ℕ
  visited : List Bool

/-- The inner selection loop: the first unvisited index among `0..N` holding
the strictly minimal finite distance, `none` when every unvisited slot is at
`Infinity` (the source's `u === -1`). -/
noncomputable def findMinLoop (dist : List (WithTop ℝ)) (visited : List Bool) (N : ℕ) :
    Option ℕ :=
  ((List.range (N + 1)).foldl (fun acc j =>
    if visited.getD j false = false ∧ dist.getD j ⊤ < acc.2 then (some j, dist.getD j ⊤)
    else acc) ((none : Option ℕ), (⊤ : WithTop ℝ))).1

/-- Relaxation of a single arc `vw` out of `u`: read the current distances,
compare, and update distance and predecessor together. An arc whose target is
outside the arrays is skipped, exactly as the comparison with `undefined` is
false in the source. -/
noncomputable def relaxStep (u : ℕ) (st : DijkstraState) (vw : ℕ × ℝ) : DijkstraState :=
  let nd := st.dist.getD u ⊤ + (vw.2 : WithTop ℝ)
  match st.dist.get? vw.1 with
  | none => st
  | some dv =>
      if nd < dv then { st with dist := st.dist.set vw.1 nd, prev := st.prev.set vw.1 u }
      else st

/-- Relaxation of every arc leaving `u`, in row order. -/
noncomputable def relaxArcs (row : List (ℕ × ℝ)) (u : ℕ) (st : DijkstraState) :
    DijkstraState :=
  row.foldl (relaxStep u) st

/-- The main Dijkstra loop, `N + 1` iterations with early break on selecting
the end node or running out of reachable unvisited nodes. -/
noncomputable def dijkstraLoop (adj : ℕ → List (ℕ × ℝ)) (endId N : ℕ) :
    ℕ → DijkstraState → DijkstraState
  | 0, st => st
  | fuel + 1, st =>
      match findMinLoop st.dist st.visited N with
      | none => st
      | some u =>
          if u = endId then st
          else
            dijkstraLoop adj endId N fuel
              (relaxArcs (adj u) u { st with visited := st.visited.set u true })

/-- The backwards predecessor walk of the path reconstruction; the fuel only
serves termination and is never exhausted on states produced by the loop. -/
def walkPrev (prev : List ℕ) (startId : ℕ) : ℕ → ℕ → List ℕ
  | 0, _ => []
  | fuel + 1, u =>
      if u = 0 then []
      else u :: (if u = startId then [] else walkPrev prev startId fuel (prev.getD u 0))

/-- The state after the main loop: arrays initialized with `Infinity`
distances except 0 at the start id, no predecessors, nothing visited, then
the loop run for its full bound. -/
noncomputable def dijkstraFinal (startId endId : ℕ) (g : Graph) : DijkstraState :=
  let N := g.nextId - 1
  dijkstraLoop (adjOf g) endId N (N + 1)
    ⟨(List.replicate (N + 1) (⊤ : WithTop ℝ)).set startId 0,
      List.replicate (N + 1) 0, List.replicate (N + 1) false⟩

/-- `findShortestPath` of the source: run the loop, fail when the end node's
predecessor slot is still 0, otherwise reconstruct the path and return it with
the accumulated distance. -/
noncomputable def findShortestPath (startId endId : ℕ) (g : Graph) :
    Option (List ℕ × WithTop ℝ) :=
  let st := dijkstraFinal startId endId g
  if st.prev.getD endId 0 = 0 then none
  else some ((walkPrev st.prev startId (g.nextId - 1 + 2) endId).reverse,
    st.dist.getD endId ⊤)

/-! ## Association list lemmas -/

theorem alistGet?_append_of_some {κ β : Type} [DecidableEq κ] {k : κ} {v : β}
    {l₁ : List (κ × β)} (l₂ : List (κ × β)) (h : alistGet? k l₁ = some v) :
    alistGet? k (l₁ ++ l₂) = some v := by
  induction l₁ with
  | nil => simp [alistGet?] at h
  | cons a rest ih =>
      obtain ⟨ka, va⟩ := a
      by_cases hk : ka = k
      · simpa [alistGet?, hk] using h
      · simp only [alistGet?, hk, if_false, List.cons_append] at h ⊢
        exact ih h

theorem alistGet?_append_of_none {κ β : Type} [DecidableEq κ] {k : κ}
    {l₁ : List (κ × β)} (l₂ : List (κ × β)) (h : alistGet? k l₁ = none) :
    alistGet? k (l₁ ++ l₂) = alistGet? k l₂ := by
  induction l₁ with
  | nil => simp [alistGet?]
  | cons a rest ih =>
      obtain ⟨ka, va⟩ := a
      by_cases hk : ka = k
      · simp [alistGet?, hk] at h
      · simp only [alistGet?, hk, if_false, List.cons_append] at h ⊢
        exact ih h

theorem alistGet?_alistSet_self {κ β : Type} [DecidableEq κ] (k : κ) (f : β → β)
    (l : List (κ × β)) : alistGet? k (alistSet k f l) = (alistGet? k l).map f := by
  induction l with
  | nil => simp [alistGet?, alistSet]
  | cons a rest ih =>
      obtain ⟨ka, va⟩ := a
      by_cases hk : ka = k
      · simp [alistGet?, alistSet, hk]
      · simp [alistGet?, alistSet, hk, ih]

theorem alistGet?_alistSet_ne {κ β : Type} [DecidableEq κ] {k k' : κ} (f : β → β)
    (l : List (κ × β)) (h : k' ≠ k) :
    alistGet? k' (alistSet k f l) = alistGet? k' l := by
  induction l with
  | nil => simp [alistSet]
  | cons a rest ih =>
      obtain ⟨ka, va⟩ := a
      by_cases hk : ka = k
      · have hka : ka ≠ k' := fun hh => h (hh ▸ hk)
        simp [alistSet, alistGet?, hk, hka, Ne.symm h]
      · by_cases hk' : ka = k'
        · simp [alistSet, alistGet?, hk, hk', h]
        · simp [alistSet, alistGet?, hk, hk', ih]

theorem alistSet_of_notMem {κ β : Type} [DecidableEq κ] {k : κ} (f : β → β)
    {l : List (κ × β)} (h : alistGet? k l = none) : alistSet k f l = l := by
  induction l with
  | nil => simp [alistSet]
  | cons a rest ih =>
      obtain ⟨ka, va⟩ := a
      by_cases hk : ka = k
      · simp [alistGet?, hk] at h
      · simp only [alistGet?, hk, if_false] at h
        simp [alistSet, hk, ih h]

theorem mem_alistSet {κ β : Type} [DecidableEq κ] {k : κ} {f : β → β}
    {l : List (κ × β)} {e : κ × β} (h : e ∈ alistSet k f l) :
    e ∈ l ∨ (e.1 = k ∧ ∃ v, (k, v) ∈ l ∧ e.2 = f v) := by
  induction l with
  | nil => simp [alistSet] at h
  | cons a rest ih =>
      obtain ⟨ka, va⟩ := a
      by_cases hk : ka = k
      · subst hk
        simp only [alistSet, if_pos rfl] at h
        rcases List.mem_cons.mp h with he | he
        · exact Or.inr ⟨by simp [he], va, by simp, by simp [he]⟩
        · exact Or.inl (List.mem_cons_of_mem _ he)
      · simp only [alistSet, if_neg hk] at h
        rcases List.mem_cons.mp h with he | he
        · exact Or.inl (he ▸ List.mem_cons_self _ _)
        · rcases ih he with h' | ⟨h1, v, hv, h2⟩
          · exact Or.inl (List.mem_cons_of_mem _ h')
          · exact Or.inr ⟨h1, v, List.mem_cons_of_mem _ hv, h2⟩

/-! ## C5: graphAddNode -/

/-- C5. `graphAddNode` returns the already-assigned id and leaves the graph
unchanged when the rounded key is present; otherwise it allocates `nextId`
(incrementing it, so ids are handed out in strictly increasing order), stores
the coordinate and an empty adjacency list; and any later coordinate with the
same rounded key resolves to the same node id. -/
theorem graphAddNode_spec (lat lon : ℚ) (g : Graph) :
    (∀ id, alistGet? (coordKey lat lon) g.nodes = some id →
      graphAddNode lat lon g = (id, g)) ∧
    (alistGet? (coordKey lat lon) g.nodes = none →
      graphAddNode lat lon g =
        (g.nextId,
          { nextId := g.nextId + 1
            nodes := g.nodes ++ [(coordKey lat lon, g.nextId)]
            coords := g.coords ++ [(g.nextId, (lat, lon))]
            adj := g.adj ++ [(g.nextId, [])]
            segments := g.segments })) ∧
    (∀ lat' lon', coordKey lat' lon' = coordKey lat lon →
      (graphAddNode lat' lon' (graphAddNode lat lon g).2).1 =
        (graphAddNode lat lon g).1 ∧
      (graphAddNode lat' lon' (graphAddNode lat lon g).2).2 =
        (graphAddNode lat lon g).2) := by
  refine ⟨fun id h => by simp [graphAddNode, h], fun h => by simp [graphAddNode, h],
    fun lat' lon' hk => ?_⟩
  cases hg : alistGet? (coordKey lat lon) g.nodes with
  | some id =>
      have h1 : graphAddNode lat lon g = (id, g) := by simp [graphAddNode, hg]
      have h2 : graphAddNode lat' lon' g = (id, g) := by simp [graphAddNode, hk, hg]
      simp [h1, h2]
  | none =>
      have h1 : graphAddNode lat lon g =
          (g.nextId,
            { nextId := g.nextId + 1
              nodes := g.nodes ++ [(coordKey lat lon, g.nextId)]
              coords := g.coords ++ [(g.nextId, (lat, lon))]
              adj := g.adj ++ [(g.nextId, [])]
              segments := g.segments }) := by simp [graphAddNode, hg]
      have h2 : alistGet? (coordKey lat' lon')
          (g.nodes ++ [(coordKey lat lon, g.nextId)]) = some g.nextId := by
        rw [hk, alistGet?_append_of_none _ hg]
        simp [alistGet?]
      rw [h1]
      simp [graphAddNode, h2]

/-- Witness for C5 at concrete inputs: adding `(0, 0)` to the empty graph
allocates id 1, and a second coordinate rounding to the same key (here
`(1/10^7, 0)`) resolves to the same node without changing the graph. -/
theorem graphAddNode_spec_witness :
    (alistGet? (coordKey 0 0) emptyGraph.nodes = none ∧
      graphAddNode 0 0 emptyGraph =
        (1, { nextId := 2
              nodes := [(coordKey 0 0, 1)]
              coords := [(1, (0, 0))]
              adj := [(1, [])]
              segments := [] })) ∧
    (coordKey (1 / 10000000) 0 = coordKey 0 0 ∧
      (graphAddNode (1 / 10000000) 0 (graphAddNode 0 0 emptyGraph).2).1 =
        (graphAddNode 0 0 emptyGraph).1) := by
  have h := graphAddNode_spec 0 0 emptyGraph
  have hnone : alistGet? (coordKey 0 0) emptyGraph.nodes = none := rfl
  have hkey : coordKey (1 / 10000000 : ℚ) 0 = coordKey 0 0 := by
    have h7 : ((1 : ℚ) / 10000000) * 1000000 + 1 / 2 = 3 / 5 := by norm_num
    have hf : (⌊(3 : ℚ) / 5⌋ : ℤ) = 0 := by
      rw [Int.floor_eq_zero_iff]
      constructor <;> norm_num
    have hx : ¬((1 : ℚ) / 10000000 < 0) := by norm_num
    simp [coordKey, fix6, abs_of_nonneg, h7, hf, hx]
    norm_num [abs_of_nonneg, h7, hf]
  have h2 := h.2.1 hnone
  refine ⟨⟨hnone, ?_⟩, hkey, (h.2.2 (1 / 10000000) 0 hkey).1⟩
  simpa [emptyGraph] using h2

/-! ## Evaluation helpers for the rounding key -/

theorem fix6_eq_of_nonneg {x : ℚ} {m : ℕ} (hx : 0 ≤ x)
    (h : ⌊x * 1000000 + 1 / 2⌋ = (m : ℤ)) : fix6 x = (false, m) := by
  unfold fix6
  rw [abs_of_nonneg hx, h]
  simp [not_lt.mpr hx, Int.toNat_natCast]

theorem fix6_eq_of_neg {x : ℚ} {m : ℕ} (hx : x < 0)
    (h : ⌊(-x) * 1000000 + 1 / 2⌋ = (m : ℤ)) : fix6 x = (true, m) := by
  unfold fix6
  rw [abs_of_neg hx, h]
  simp [hx, Int.toNat_natCast]

theorem fix6_zero : fix6 0 = (false, 0) :=
  fix6_eq_of_nonneg le_rfl (by norm_num)

theorem fix6_one : fix6 1 = (false, 1000000) :=
  fix6_eq_of_nonneg zero_le_one (by norm_num)

theorem fix6_two : fix6 2 = (false, 2000000) :=
  fix6_eq_of_nonneg (by norm_num) (by norm_num)

/-! ## Builder bookkeeping lemmas -/

theorem graphAddNode_segments (lat lon : ℚ) (g : Graph) :
    ((graphAddNode lat lon g).2).segments = g.segments := by
  cases h : alistGet? (coordKey lat lon) g.nodes <;> simp [graphAddNode, h]

theorem graphAddEdge_segments (idA idB : ℕ) (g : Graph) :
    (graphAddEdge idA idB g).segments =
      g.segments ++ [⟨(alistGet? idA g.coords).getD (0, 0),
        (alistGet? idB g.coords).getD (0, 0), idA, idB⟩] := rfl

theorem addVertices_nil (prevId : Option ℕ) (g : Graph) :
    addVertices prevId [] g = g := rfl

theorem addVertices_cons_some (p : ℕ) (c : ℚ × ℚ) (rest : List (ℚ × ℚ)) (g : Graph) :
    addVertices (some p) (c :: rest) g =
      addVertices (some (graphAddNode c.2 c.1 g).1) rest
        (graphAddEdge p (graphAddNode c.2 c.1 g).1 (graphAddNode c.2 c.1 g).2) := rfl

theorem addVertices_cons_none (c : ℚ × ℚ) (rest : List (ℚ × ℚ)) (g : Graph) :
    addVertices none (c :: rest) g =
      addVertices (some (graphAddNode c.2 c.1 g).1) rest (graphAddNode c.2 c.1 g).2 := rfl

theorem graphAddEdge_segments_length (idA idB : ℕ) (g : Graph) :
    (graphAddEdge idA idB g).segments.length = g.segments.length + 1 := by
  simp [graphAddEdge_segments]

theorem addVertices_segments_some (cs : List (ℚ × ℚ)) :
    ∀ (p : ℕ) (g : Graph),
      (addVertices (some p) cs g).segments.length = g.segments.length + cs.length := by
  induction cs with
  | nil => intro p g; simp [addVertices_nil]
  | cons c rest ih =>
      intro p g
      rw [addVertices_cons_some, ih, graphAddEdge_segments_length, graphAddNode_segments]
      simp only [List.length_cons]
      omega

theorem addVertices_segments_none (cs : List (ℚ × ℚ)) (g : Graph) :
    (addVertices none cs g).segments.length = g.segments.length + (cs.length - 1) := by
  cases cs with
  | nil => simp [addVertices_nil]
  | cons c rest =>
      rw [addVertices_cons_none, addVertices_segments_some, graphAddNode_segments]
      simp

/-! ## C7: the navigable type filter -/

/-- A way feature tagged with the literal type "navigation-channel", which the
specification's enumerated set names but the source's `navigableTypes` list
does not contain. -/
def elC7 : Element :=
  { type := "way"
    geometry := some [⟨0, 0⟩, ⟨0, 1⟩]
    tags := some { waterway := some ("navigation-channel")
                   width := none, boat := none, motorboat := none, ship := none } }

/-- Counterexample to C7 as stated: a 2-vertex way whose type tag is the
literal "navigation-channel" is discarded by the builder (the graph is
unchanged), although the claim's enumerated set contains that tag, so the
claim's "every feature whose type tag is in that set contributes its
consecutive vertex pairs" fails at this input. -/
theorem navigation_channel_discarded :
    elC7.type = "way" ∧ (elC7.geometry.getD []).length = 2 ∧
    elC7.tags.bind Tags.waterway = some ("navigation-channel") ∧
    buildStep emptyGraph elC7 = emptyGraph := by
  refine ⟨rfl, rfl, rfl, ?_⟩
  simp [buildStep, elC7, tagTruthy, navigableTypes]

/-- C7 amended: a line feature contributes nodes and edges only if its type
tag is in the source's enumerated set (canal, river, fairway, shipyard,
navigation); every way feature with a tag in that set, at least 2 vertices and
passing the river filter contributes one edge per consecutive vertex pair, and
every way feature whose tag is absent or outside the set is discarded. -/
theorem buildStep_navigable_filter (g : Graph) (el : Element) (verts : List LatLon)
    (htype : el.type = "way") (hgeom : el.geometry = some verts) :
    (∀ wt, el.tags.bind Tags.waterway = some wt → wt ∈ navigableTypes →
      2 ≤ verts.length → ¬(wt = "river" ∧ riverSkip el.tags = true) →
      (buildStep g el).segments.length = g.segments.length + (verts.length - 1)) ∧
    (∀ wt, el.tags.bind Tags.waterway = some wt → wt ∉ navigableTypes →
      buildStep g el = g) ∧
    (el.tags.bind Tags.waterway = none → buildStep g el = g) := by
  refine ⟨fun wt hwt hmem hlen hpass => ?_, fun wt hwt hmem => ?_, fun hwt => ?_⟩
  · have hne : wt ≠ "" := by
      intro h
      subst h
      revert hmem
      decide
    have htr : tagTruthy (some wt) = true := by simp [tagTruthy, hne]
    have hskip : (decide (wt = "river") && riverSkip el.tags) = false := by
      by_cases hw : wt = "river"
      · cases hrs : riverSkip el.tags with
        | false => simp [hrs]
        | true => exact absurd ⟨hw, hrs⟩ hpass
      · simp [hw]
    have hred : buildStep g el = addVertices none (verts.map (fun v => (v.lon, v.lat))) g := by
      simp [buildStep, htype, hgeom, hwt, htr, hlen, hmem, hskip]
    rw [hred, addVertices_segments_none]
    simp
  · simp [buildStep, htype, hgeom, hwt, hmem]
  · simp [buildStep, htype, hgeom, hwt, tagTruthy]

/-- Witness for C7 amended, at a concrete canal way with 2 vertices (one edge
is contributed) and a concrete stream way (discarded). -/
theorem buildStep_navigable_filter_witness :
    (buildStep emptyGraph
      { type := "way", geometry := some [⟨0, 0⟩, ⟨0, 1⟩]
        tags := some { waterway := some ("canal")
                       width := none, boat := none, motorboat := none,
                       ship := none } }).segments.length = 1 ∧
    buildStep emptyGraph
      { type := "way", geometry := some [⟨0, 0⟩, ⟨0, 1⟩]
        tags := some { waterway := some ("stream")
                       width := none, boat := none, motorboat := none, ship := none } } =
      emptyGraph := by
  constructor
  · have h := (buildStep_navigable_filter emptyGraph
      { type := "way", geometry := some [⟨0, 0⟩, ⟨0, 1⟩]
        tags := some { waterway := some ("canal")
                       width := none, boat := none, motorboat := none, ship := none } }
      [⟨0, 0⟩, ⟨0, 1⟩] rfl rfl).1 "canal" rfl (by decide) (by decide) (by decide)
    simpa [emptyGraph] using h
  · exact (buildStep_navigable_filter emptyGraph _ [⟨0, 0⟩, ⟨0, 1⟩] rfl rfl).2.1
      "stream" rfl (by decide)

/-! ## C3: the river filter -/

/-- A 5-meter-wide river way whose boat tag carries the non-affirmative,
non-negative value "maybe". -/
def elC3 : Element :=
  { type := "way"
    geometry := some [⟨0, 0⟩, ⟨0, 1⟩]
    tags := some { waterway := some ("river")
                   width := some 5
                   boat := some ("maybe")
                   motorboat := none, ship := none } }

/-- Counterexample to C3 as stated: this river has a declared width below 10
and none of its accessibility tags is explicitly affirmative (boat is
"maybe"), yet the builder does create nodes and edges from it, because the
source only tests tag presence (`!boat`), not affirmativeness. -/
theorem small_river_maybe_boat_included :
    (elC3.tags.bind Tags.width = some 5) ∧
    (elC3.tags.bind Tags.boat = some ("maybe")) ∧
    (elC3.tags.bind Tags.motorboat = none) ∧
    (elC3.tags.bind Tags.ship = none) ∧
    (buildStep emptyGraph elC3).segments.length = 1 := by
  refine ⟨rfl, rfl, rfl, rfl, ?_⟩
  have h := (buildStep_navigable_filter emptyGraph elC3 [⟨0, 0⟩, ⟨0, 1⟩] rfl rfl).1
    "river" rfl (by decide) (by decide)
    (by
      rintro ⟨-, hskip⟩
      revert hskip
      decide)
  simpa [emptyGraph] using h

/-- C3 amended: a river way is discarded when a declared width is truthy
(nonzero, non-NaN) and below 10 and none of the three accessibility tags is
present with a truthy value, and discarded when any accessibility tag equals
"no" regardless of width; a 5-meter river with no accessibility tags is
excluded while the same feature with motorboat=yes is included. -/
theorem buildStep_river_filter (g : Graph) (el : Element) (verts : List LatLon)
    (htype : el.type = "way") (hgeom : el.geometry = some verts)
    (hwt : el.tags.bind Tags.waterway = some ("river")) :
    (widthTruthy (el.tags.bind Tags.width) = true →
      (el.tags.bind Tags.width).getD 0 < 10 →
      tagTruthy (el.tags.bind Tags.boat) = false →
      tagTruthy (el.tags.bind Tags.motorboat) = false →
      tagTruthy (el.tags.bind Tags.ship) = false →
      buildStep g el = g) ∧
    (el.tags.bind Tags.boat = some ("no") ∨
      el.tags.bind Tags.motorboat = some ("no") ∨
      el.tags.bind Tags.ship = some ("no") →
      buildStep g el = g) ∧
    (el.tags.bind Tags.width = some 5 →
      el.tags.bind Tags.motorboat = some ("yes") →
      el.tags.bind Tags.boat ≠ some ("no") →
      el.tags.bind Tags.ship ≠ some ("no") →
      2 ≤ verts.length →
      (buildStep g el).segments.length = g.segments.length + (verts.length - 1)) := by
  refine ⟨fun hwid hlt hb hm hs => ?_, fun hno => ?_, fun hwid hm hbn hsn hlen => ?_⟩
  · have hskip : riverSkip el.tags = true := by
      simp only [riverSkip, hwid, hlt, hb, hm, hs, decide_eq_true_eq]
      simp [hlt]
    simp [buildStep, htype, hgeom, hwt, tagTruthy, navigableTypes, hskip]
  · have hskip : riverSkip el.tags = true := by
      rcases hno with h | h | h <;> simp [riverSkip, h]
    simp [buildStep, htype, hgeom, hwt, tagTruthy, navigableTypes, hskip]
  · have hskip : riverSkip el.tags = false := by
      simp only [riverSkip, hwid, hm]
      simp [tagTruthy, hbn, hsn]
    exact (buildStep_navigable_filter g el verts htype hgeom).1 "river" hwt (by decide)
      hlen (by simp [hskip])

/-- A 5-meter-wide river way with no accessibility tags at all. -/
def elC3b : Element :=
  { type := "way"
    geometry := some [⟨0, 0⟩, ⟨0, 1⟩]
    tags := some { waterway := some ("river")
                   width := some 5
                   boat := none, motorboat := none, ship := none } }

/-- The same 5-meter-wide river with motorboat=yes. -/
def elC3c : Element :=
  { type := "way"
    geometry := some [⟨0, 0⟩, ⟨0, 1⟩]
    tags := some { waterway := some ("river")
                   width := some 5
                   boat := none
                   motorboat := some ("yes")
                   ship := none } }

/-- A river way tagged ship=no. -/
def elC3d : Element :=
  { type := "way"
    geometry := some [⟨0, 0⟩, ⟨0, 1⟩]
    tags := some { waterway := some ("river"), width := none
                   boat := none, motorboat := none
                   ship := some ("no") } }

/-- Witness for C3 amended: the tagless 5-meter river is excluded, the
motorboat=yes variant contributes an edge, and a river tagged ship=no is
excluded. -/
theorem buildStep_river_filter_witness :
    buildStep emptyGraph elC3b = emptyGraph ∧
    (buildStep emptyGraph elC3c).segments.length = 1 ∧
    buildStep emptyGraph elC3d = emptyGraph := by
  refine ⟨?_, ?_, ?_⟩
  · exact (buildStep_river_filter emptyGraph elC3b [⟨0, 0⟩, ⟨0, 1⟩] rfl rfl rfl).1
      (by decide) (by decide) (by decide) (by decide) (by decide)
  · have h := (buildStep_river_filter emptyGraph elC3c [⟨0, 0⟩, ⟨0, 1⟩] rfl rfl rfl).2.2
      rfl rfl (by decide) (by decide) (by decide)
    simpa [emptyGraph] using h
  · exact (buildStep_river_filter emptyGraph elC3d [⟨0, 0⟩, ⟨0, 1⟩] rfl rfl rfl).2.1
      (Or.inr (Or.inr rfl))

/-! ## C10: batching does not affect the result -/

theorem buildBatchedAux_eq_foldl (batch : ℕ) (hb : 1 ≤ batch) :
    ∀ (fuel : ℕ) (els : List Element) (g : Graph), els.length ≤ fuel →
      buildBatchedAux batch fuel els g = els.foldl buildStep g := by
  intro fuel
  induction fuel with
  | zero =>
      intro els g hlen
      have : els = [] := List.length_eq_zero.mp (Nat.le_zero.mp hlen)
      subst this
      cases batch <;> rfl
  | succ fuel ih =>
      intro els g hlen
      cases els with
      | nil => cases batch <;> rfl
      | cons e rest =>
          have hstep : buildBatchedAux batch (fuel + 1) (e :: rest) g =
              buildBatchedAux batch fuel ((e :: rest).drop batch)
                (((e :: rest).take batch).foldl buildStep g) := by
            cases batch with
            | zero => exact absurd hb (by simp)
            | succ b => rfl
          have hd : ((e :: rest).drop batch).length = (e :: rest).length - batch :=
            List.length_drop _ _
          rw [hstep, ih _ _ (by
            rw [hd]
            simp only [List.length_cons] at hlen ⊢
            omega)]
          rw [← List.foldl_append, List.take_append_drop]

/-- Every node id recorded in the dedup map was allocated below `nextId`, and
the ids appear there in strictly increasing order of first encounter. -/
def NodesOrdered (g : Graph) : Prop :=
  List.Sorted (· < ·) (g.nodes.map Prod.snd) ∧
    ∀ i ∈ g.nodes.map Prod.snd, i < g.nextId

theorem graphAddNode_nodesOrdered (lat lon : ℚ) {g : Graph} (h : NodesOrdered g) :
    NodesOrdered (graphAddNode lat lon g).2 := by
  cases hk : alistGet? (coordKey lat lon) g.nodes with
  | some id => simpa [graphAddNode, hk] using h
  | none =>
      obtain ⟨hs, hlt⟩ := h
      constructor
      · simp only [graphAddNode, hk, List.map_append]
        exact List.pairwise_append.mpr ⟨hs, by simp, fun a ha b hb => by
          simp at hb
          exact hb ▸ hlt a ha⟩
      · intro i hi
        simp only [graphAddNode, hk, List.map_append, List.mem_append] at hi ⊢
        rcases hi with hi | hi
        · exact Nat.lt_succ_of_lt (hlt i hi)
        · simp at hi
          omega

theorem graphAddEdge_nodesOrdered (idA idB : ℕ) {g : Graph} (h : NodesOrdered g) :
    NodesOrdered (graphAddEdge idA idB g) := h

theorem addVertices_nodesOrdered (cs : List (ℚ × ℚ)) :
    ∀ (prevId : Option ℕ) {g : Graph}, NodesOrdered g →
      NodesOrdered (addVertices prevId cs g) := by
  induction cs with
  | nil => intro prevId g h; exact h
  | cons c rest ih =>
      intro prevId g h
      cases prevId with
      | none =>
          rw [addVertices_cons_none]
          exact ih _ (graphAddNode_nodesOrdered _ _ h)
      | some p =>
          rw [addVertices_cons_some]
          exact ih _ (graphAddEdge_nodesOrdered _ _ (graphAddNode_nodesOrdered _ _ h))

theorem buildStep_nodesOrdered (el : Element) {g : Graph} (h : NodesOrdered g) :
    NodesOrdered (buildStep g el) := by
  unfold buildStep
  split
  · cases hgeom : el.geometry with
    | none => exact h
    | some verts =>
        simp only
        split
        · split
          · split
            · exact h
            · exact addVertices_nodesOrdered _ _ h
          · exact h
        · exact h
  · exact h

theorem foldl_buildStep_nodesOrdered (els : List Element) :
    ∀ {g : Graph}, NodesOrdered g → NodesOrdered (els.foldl buildStep g) := by
  induction els with
  | nil => intro g h; exact h
  | cons e rest ih => intro g h; exact ih (buildStep_nodesOrdered e h)

/-- C10. The batched builder computes, for every positive batch size, exactly
the graph of a single sequential pass over the elements in order (so batch
size does not affect the result, and two builds on identical input are
identical); and node ids are recorded in strictly increasing order of first
encounter, all below the allocation counter. -/
theorem buildBatched_eq_single_pass :
    (∀ batch, 1 ≤ batch → ∀ els, buildBatched batch els = buildPass els) ∧
    (∀ els, buildGraphFromWaterways els = buildPass els) ∧
    (∀ els, NodesOrdered (buildGraphFromWaterways els)) := by
  have hmain : ∀ batch, 1 ≤ batch → ∀ els, buildBatched batch els = buildPass els :=
    fun batch hb els => buildBatchedAux_eq_foldl batch hb els.length els emptyGraph le_rfl
  refine ⟨hmain, fun els => hmain BATCH (by norm_num [BATCH]) els, fun els => ?_⟩
  show NodesOrdered (buildBatched BATCH els)
  rw [hmain BATCH (by norm_num [BATCH]) els]
  exact foldl_buildStep_nodesOrdered els ⟨List.sorted_nil, by simp [emptyGraph]⟩

/-- Witness for C10 at batch size 1 and 200 on a concrete one-element input. -/
theorem buildBatched_eq_single_pass_witness :
    buildBatched 1 [elC3c] = buildPass [elC3c] ∧
    buildBatched 200 [elC3c] = buildPass [elC3c] := by
  have h := buildBatched_eq_single_pass.1
  exact ⟨h 1 (by norm_num) [elC3c], h 200 (by norm_num) [elC3c]⟩

/-! ## Snapper lemmas -/

theorem haversine_nonneg (a b : ℚ × ℚ) : 0 ≤ haversine a b := by
  unfold haversine
  have h1 : (0 : ℝ) ≤ 2 * Rearth := by norm_num [Rearth]
  exact mul_nonneg h1 (Real.arcsin_nonneg.mpr (Real.sqrt_nonneg _))

theorem alistGet?_append_singleton_ne {κ β : Type} [DecidableEq κ] {k k' : κ} (v : β)
    (l : List (κ × β)) (h : k ≠ k') : alistGet? k (l ++ [(k', v)]) = alistGet? k l := by
  cases hx : alistGet? k l with
  | some w => exact alistGet?_append_of_some _ hx
  | none => simp [alistGet?_append_of_none _ hx, hx, alistGet?, Ne.symm h]

theorem alistGet?_append_singleton_self {κ β : Type} [DecidableEq κ] (k : κ) (v : β)
    (l : List (κ × β)) : (alistGet? k (l ++ [(k, v)])).isSome = true := by
  cases hx : alistGet? k l with
  | some w => rw [alistGet?_append_of_some _ hx]; rfl
  | none => rw [alistGet?_append_of_none _ hx]; simp [alistGet?]

/-- The accumulator produced when a segment wins the nearest-segment scan. -/
noncomputable def mkAcc (target : ℚ × ℚ) (seg : Seg) : NearestAcc :=
  let pr := nearestPointOnSegment target seg.a seg.b
  { dist := (haversine target (pr.1, pr.2.1) : WithTop ℝ), id := none,
    proj := (pr.1, pr.2.1), idA := some seg.idA, idB := some seg.idB, t := pr.2.2 }

theorem scanSegments_cons (target : ℚ × ℚ) (s : Seg) (rest : List Seg) (acc : NearestAcc) :
    scanSegments target (s :: rest) acc =
      scanSegments target rest
        (if (haversine target ((nearestPointOnSegment target s.a s.b).1,
              (nearestPointOnSegment target s.a s.b).2.1) : WithTop ℝ) < acc.dist
         then mkAcc target s else acc) := rfl

theorem scanSegments_cases (target : ℚ × ℚ) (segs : List Seg) :
    ∀ acc : NearestAcc, scanSegments target segs acc = acc ∨
      ∃ seg ∈ segs, scanSegments target segs acc = mkAcc target seg := by
  induction segs with
  | nil => intro acc; exact Or.inl rfl
  | cons s rest ih =>
      intro acc
      rw [scanSegments_cons]
      by_cases hd : (haversine target
          ((nearestPointOnSegment target s.a s.b).1,
            (nearestPointOnSegment target s.a s.b).2.1) : WithTop ℝ) < acc.dist
      · rw [if_pos hd]
        rcases ih (mkAcc target s) with h | ⟨seg, hmem, h⟩
        · exact Or.inr ⟨s, List.mem_cons_self _ _, h⟩
        · exact Or.inr ⟨seg, List.mem_cons_of_mem _ hmem, h⟩
      · rw [if_neg hd]
        rcases ih acc with h | ⟨seg, hmem, h⟩
        · exact Or.inl h
        · exact Or.inr ⟨seg, List.mem_cons_of_mem _ hmem, h⟩

theorem scanSegments_of_ne_nil (target : ℚ × ℚ) {segs : List Seg} (h : segs ≠ [])
    (acc : NearestAcc) (hacc : acc.dist = ⊤) :
    ∃ seg ∈ segs, scanSegments target segs acc = mkAcc target seg := by
  cases segs with
  | nil => exact absurd rfl h
  | cons s rest =>
      have hd : (haversine target
          ((nearestPointOnSegment target s.a s.b).1,
            (nearestPointOnSegment target s.a s.b).2.1) : WithTop ℝ) < acc.dist := by
        rw [hacc]
        exact WithTop.coe_lt_top _
      rw [scanSegments_cons, if_pos hd]
      rcases scanSegments_cases target rest (mkAcc target s) with h' | ⟨seg, hmem, h'⟩
      · exact ⟨s, List.mem_cons_self _ _, h'⟩
      · exact ⟨seg, List.mem_cons_of_mem _ hmem, h'⟩

/-- Reduction of the snapping branch once the scan result is known. -/
theorem findNearestGraphNode_snap_eq (latlng : ℚ × ℚ) (g : Graph) (seg : Seg)
    (hne : g.segments ≠ [])
    (hscan : scanSegments latlng g.segments ⟨⊤, none, latlng, none, none, 0⟩ =
      mkAcc latlng seg) :
    findNearestGraphNode latlng g true =
      (some ⟨(snapSplice (mkAcc latlng seg).proj seg.idA seg.idB g).1, true,
          (mkAcc latlng seg).proj⟩,
        (snapSplice (mkAcc latlng seg).proj seg.idA seg.idB g).2) := by
  have hemp : g.segments.isEmpty = false := by
    cases hsg : g.segments with
    | nil => exact absurd hsg hne
    | cons a l => rfl
  simp only [findNearestGraphNode, hemp, Bool.not_false, Bool.and_self, if_pos rfl, hscan]
  rfl

/-- The adjacency mutation chain of `snapSplice`, written out. -/
def spliceAdj (t idA idB : ℕ) (dA dB : ℝ) (L : List (ℕ × List (ℕ × ℝ))) :
    List (ℕ × List (ℕ × ℝ)) :=
  alistSet idB (fun l => l ++ [(t, dB)])
    (alistSet t (fun l => l ++ [(idB, dB)])
      (alistSet idA (fun l => l ++ [(t, dA)])
        (alistSet t (fun l => l ++ [(idA, dA)])
          (alistSet t (fun _ => []) L))))

theorem spliceAdj_spec {t idA idB : ℕ} {dA dB : ℝ} {L : List (ℕ × List (ℕ × ℝ))}
    {l0 : List (ℕ × ℝ)} (ht : alistGet? t L = some l0) (hA : idA ≠ t) (hB : idB ≠ t) :
    alistGet? t (spliceAdj t idA idB dA dB L) = some [(idA, dA), (idB, dB)] ∧
    (idA ≠ idB →
      alistGet? idA (spliceAdj t idA idB dA dB L) =
        (alistGet? idA L).map (fun l => l ++ [(t, dA)]) ∧
      alistGet? idB (spliceAdj t idA idB dA dB L) =
        (alistGet? idB L).map (fun l => l ++ [(t, dB)])) ∧
    (∀ i, i ≠ t → i ≠ idA → i ≠ idB →
      alistGet? i (spliceAdj t idA idB dA dB L) = alistGet? i L) ∧
    (∀ i l, i ≠ t → alistGet? i L = some l →
      ∃ ex, alistGet? i (spliceAdj t idA idB dA dB L) = some (l ++ ex)) := by
  have h0t : alistGet? t (alistSet t (fun _ => ([] : List (ℕ × ℝ))) L) = some [] := by
    rw [alistGet?_alistSet_self, ht]
    rfl
  have h0i : ∀ i, i ≠ t →
      alistGet? i (alistSet t (fun _ => ([] : List (ℕ × ℝ))) L) = alistGet? i L :=
    fun i hi => alistGet?_alistSet_ne _ _ hi
  have key : ∀ i, alistGet? i (spliceAdj t idA idB dA dB L) =
      if i = t then some [(idA, dA), (idB, dB)]
      else if i = idA then
        (if idA = idB then (alistGet? i L).map (fun l => l ++ [(t, dA), (t, dB)])
         else (alistGet? i L).map (fun l => l ++ [(t, dA)]))
      else if i = idB then (alistGet? i L).map (fun l => l ++ [(t, dB)])
      else alistGet? i L := by
    intro i
    unfold spliceAdj
    by_cases hit : i = t
    · subst hit
      rw [alistGet?_alistSet_ne _ _ (Ne.symm hB), alistGet?_alistSet_self,
        alistGet?_alistSet_ne _ _ (Ne.symm hA), alistGet?_alistSet_self, h0t,
        if_pos rfl]
      rfl
    · by_cases hiA : i = idA
      · subst hiA
        by_cases hAB : i = idB
        · rw [← hAB, if_neg hit, if_pos rfl, if_pos (hAB ▸ rfl)]
          rw [alistGet?_alistSet_self, alistGet?_alistSet_ne _ _ hit,
            alistGet?_alistSet_self, alistGet?_alistSet_ne _ _ hit, h0i i hit]
          cases alistGet? i L <;> simp
        · rw [if_neg hit, if_pos rfl, if_neg fun hh => hAB hh]
          rw [alistGet?_alistSet_ne _ _ hAB, alistGet?_alistSet_ne _ _ hit,
            alistGet?_alistSet_self, alistGet?_alistSet_ne _ _ hit, h0i i hit]
      · by_cases hiB : i = idB
        · subst hiB
          rw [if_neg hit, if_neg hiA, if_pos rfl]
          rw [alistGet?_alistSet_self, alistGet?_alistSet_ne _ _ hit,
            alistGet?_alistSet_ne _ _ hiA, alistGet?_alistSet_ne _ _ hit, h0i i hit]
        · rw [if_neg hit, if_neg hiA, if_neg hiB]
          rw [alistGet?_alistSet_ne _ _ hiB, alistGet?_alistSet_ne _ _ hit,
            alistGet?_alistSet_ne _ _ hiA, alistGet?_alistSet_ne _ _ hit, h0i i hit]
  refine ⟨by rw [key t, if_pos rfl], fun hAB => ⟨?_, ?_⟩, fun i h1 h2 h3 => ?_, ?_⟩
  · rw [key idA, if_neg hA, if_pos rfl, if_neg hAB]
  · rw [key idB, if_neg hB, if_neg (fun hh => hAB hh.symm), if_pos rfl]
  · rw [key i, if_neg h1, if_neg h2, if_neg h3]
  · intro i l h1 h2
    rw [key i, if_neg h1]
    by_cases hiA : i = idA
    · rw [if_pos hiA]
      by_cases hAB : idA = idB
      · rw [if_pos hAB, h2]
        exact ⟨[(t, dA), (t, dB)], rfl⟩
      · rw [if_neg hAB, h2]
        exact ⟨[(t, dA)], rfl⟩
    · rw [if_neg hiA]
      by_cases hiB : i = idB
      · rw [if_pos hiB, h2]
        exact ⟨[(t, dB)], rfl⟩
      · rw [if_neg hiB, h2]
        exact ⟨[], by simp⟩

theorem snapSplice_eq (proj : ℚ × ℚ) (idA idB : ℕ) (g : Graph) :
    snapSplice proj idA idB g =
      ((graphAddNode proj.1 proj.2 g).1,
        { (graphAddNode proj.1 proj.2 g).2 with
          adj := spliceAdj (graphAddNode proj.1 proj.2 g).1 idA idB
            (haversine proj
              ((alistGet? idA (graphAddNode proj.1 proj.2 g).2.coords).getD (0, 0)))
            (haversine proj
              ((alistGet? idB (graphAddNode proj.1 proj.2 g).2.coords).getD (0, 0)))
            (graphAddNode proj.1 proj.2 g).2.adj }) := rfl

/-- Behaviour of the splice when the projected key is not yet a node key: a
fresh node id is allocated and gets exactly the two weighted arcs to the
matched endpoints, each distinct endpoint's list is extended by exactly one
reverse arc, every other adjacency entry is untouched, and no pre-existing
arc is removed. -/
theorem snapSplice_fresh (proj : ℚ × ℚ) (idA idB : ℕ) (g : Graph)
    (hfresh : alistGet? (coordKey proj.1 proj.2) g.nodes = none)
    (hadj : alistGet? g.nextId g.adj = none)
    (hA : idA ≠ g.nextId) (hB : idB ≠ g.nextId) :
    (snapSplice proj idA idB g).1 = g.nextId ∧
    (snapSplice proj idA idB g).2.nextId = g.nextId + 1 ∧
    (snapSplice proj idA idB g).2.coords = g.coords ++ [(g.nextId, proj)] ∧
    (snapSplice proj idA idB g).2.segments = g.segments ∧
    alistGet? g.nextId (snapSplice proj idA idB g).2.adj =
      some [(idA, haversine proj ((alistGet? idA g.coords).getD (0, 0))),
            (idB, haversine proj ((alistGet? idB g.coords).getD (0, 0)))] ∧
    (idA ≠ idB →
      alistGet? idA (snapSplice proj idA idB g).2.adj =
        (alistGet? idA g.adj).map
          (fun l => l ++ [(g.nextId,
            haversine proj ((alistGet? idA g.coords).getD (0, 0)))]) ∧
      alistGet? idB (snapSplice proj idA idB g).2.adj =
        (alistGet? idB g.adj).map
          (fun l => l ++ [(g.nextId,
            haversine proj ((alistGet? idB g.coords).getD (0, 0)))])) ∧
    (∀ i, i ≠ g.nextId → i ≠ idA → i ≠ idB →
      alistGet? i (snapSplice proj idA idB g).2.adj = alistGet? i g.adj) ∧
    (∀ i l, alistGet? i g.adj = some l →
      ∃ ex, alistGet? i (snapSplice proj idA idB g).2.adj = some (l ++ ex)) := by
  have hnode : graphAddNode proj.1 proj.2 g =
      (g.nextId,
        { nextId := g.nextId + 1
          nodes := g.nodes ++ [(coordKey proj.1 proj.2, g.nextId)]
          coords := g.coords ++ [(g.nextId, proj)]
          adj := g.adj ++ [(g.nextId, [])]
          segments := g.segments }) := by
    simp [graphAddNode, hfresh]
  have hcA : alistGet? idA (g.coords ++ [(g.nextId, proj)]) = alistGet? idA g.coords :=
    alistGet?_append_singleton_ne _ _ hA
  have hcB : alistGet? idB (g.coords ++ [(g.nextId, proj)]) = alistGet? idB g.coords :=
    alistGet?_append_singleton_ne _ _ hB
  have ht : alistGet? g.nextId (g.adj ++ [(g.nextId, ([] : List (ℕ × ℝ)))]) = some [] := by
    rw [alistGet?_append_of_none _ hadj]
    simp [alistGet?]
  rw [snapSplice_eq, hnode]
  simp only [hcA, hcB]
  obtain ⟨k1, k2, k3, k4⟩ := @spliceAdj_spec g.nextId idA idB
    (haversine proj ((alistGet? idA g.coords).getD (0, 0)))
    (haversine proj ((alistGet? idB g.coords).getD (0, 0)))
    (g.adj ++ [(g.nextId, [])]) [] ht hA hB
  refine ⟨trivial, trivial, trivial, trivial, k1, fun hAB => ?_, fun i h1 h2 h3 => ?_,
    fun i l hil => ?_⟩
  · obtain ⟨m1, m2⟩ := k2 hAB
    rw [m1, m2, alistGet?_append_singleton_ne _ _ hA, alistGet?_append_singleton_ne _ _ hB]
    exact ⟨rfl, rfl⟩
  · rw [k3 i h1 h2 h3, alistGet?_append_singleton_ne _ _ h1]
  · have hne : i ≠ g.nextId := by
      intro hh
      rw [hh, hadj] at hil
      cases hil
    have hil' : alistGet? i (g.adj ++ [(g.nextId, ([] : List (ℕ × ℝ)))]) = some l := by
      rw [alistGet?_append_singleton_ne _ _ hne, hil]
    exact k4 i l hne hil'

/-- Behaviour of the splice when the projected key already names a node `k`
distinct from both segment endpoints: no new node is allocated, `k`'s previous
adjacency list is discarded and replaced by exactly the two arcs to the
endpoints, and every other entry — including the endpoints' reverse arcs
toward `k` — is only appended to, never truncated. -/
theorem snapSplice_existing (proj : ℚ × ℚ) (idA idB k : ℕ) (g : Graph)
    {l0 : List (ℕ × ℝ)}
    (hk : alistGet? (coordKey proj.1 proj.2) g.nodes = some k)
    (hkadj : alistGet? k g.adj = some l0)
    (hA : idA ≠ k) (hB : idB ≠ k) :
    (snapSplice proj idA idB g).1 = k ∧
    (snapSplice proj idA idB g).2.nextId = g.nextId ∧
    (snapSplice proj idA idB g).2.coords = g.coords ∧
    (snapSplice proj idA idB g).2.nodes = g.nodes ∧
    (snapSplice proj idA idB g).2.segments = g.segments ∧
    alistGet? k (snapSplice proj idA idB g).2.adj =
      some [(idA, haversine proj ((alistGet? idA g.coords).getD (0, 0))),
            (idB, haversine proj ((alistGet? idB g.coords).getD (0, 0)))] ∧
    (idA ≠ idB →
      alistGet? idA (snapSplice proj idA idB g).2.adj =
        (alistGet? idA g.adj).map
          (fun l => l ++ [(k, haversine proj ((alistGet? idA g.coords).getD (0, 0)))]) ∧
      alistGet? idB (snapSplice proj idA idB g).2.adj =
        (alistGet? idB g.adj).map
          (fun l => l ++ [(k, haversine proj ((alistGet? idB g.coords).getD (0, 0)))])) ∧
    (∀ i, i ≠ k → i ≠ idA → i ≠ idB →
      alistGet? i (snapSplice proj idA idB g).2.adj = alistGet? i g.adj) ∧
    (∀ i l, i ≠ k → alistGet? i g.adj = some l →
      ∃ ex, alistGet? i (snapSplice proj idA idB g).2.adj = some (l ++ ex)) := by
  have hnode : graphAddNode proj.1 proj.2 g = (k, g) := by
    simp [graphAddNode, hk]
  rw [snapSplice_eq, hnode]
  obtain ⟨k1, k2, k3, k4⟩ := @spliceAdj_spec k idA idB
    (haversine proj ((alistGet? idA g.coords).getD (0, 0)))
    (haversine proj ((alistGet? idB g.coords).getD (0, 0)))
    g.adj l0 hkadj hA hB
  exact ⟨rfl, rfl, rfl, rfl, rfl, k1, k2, k3, k4⟩

/-! ## C1 and C6: the snapping branch of findNearestGraphNode -/

/-- C1 amended. In snap mode on a graph with at least one segment, whose ids
all lie below `nextId`, when the best-matching segment's projected point
rounds to a key not yet in the node map: the call removes no existing arc
(every pre-existing adjacency entry is only appended to), the two endpoints
of the best segment each gain exactly one new weighted arc to the new node
(when they are distinct), every other pre-existing entry is untouched, and
the returned node is the freshly allocated id whose adjacency list holds
exactly the two weighted arcs to the segment's endpoints. -/
theorem findNearest_snap_fresh (latlng : ℚ × ℚ) (g : Graph) (seg : Seg)
    (hne : g.segments ≠ [])
    (hscan : scanSegments latlng g.segments ⟨⊤, none, latlng, none, none, 0⟩ =
      mkAcc latlng seg)
    (hfresh : alistGet? (coordKey (mkAcc latlng seg).proj.1 (mkAcc latlng seg).proj.2)
      g.nodes = none)
    (hadj : alistGet? g.nextId g.adj = none)
    (hA : seg.idA ≠ g.nextId) (hB : seg.idB ≠ g.nextId) :
    (findNearestGraphNode latlng g true).1 =
      some ⟨g.nextId, true, (mkAcc latlng seg).proj⟩ ∧
    (∀ i l, alistGet? i g.adj = some l →
      ∃ ex, alistGet? i (findNearestGraphNode latlng g true).2.adj = some (l ++ ex)) ∧
    alistGet? g.nextId (findNearestGraphNode latlng g true).2.adj =
      some [(seg.idA, haversine (mkAcc latlng seg).proj
              ((alistGet? seg.idA g.coords).getD (0, 0))),
            (seg.idB, haversine (mkAcc latlng seg).proj
              ((alistGet? seg.idB g.coords).getD (0, 0)))] ∧
    (seg.idA ≠ seg.idB →
      alistGet? seg.idA (findNearestGraphNode latlng g true).2.adj =
        (alistGet? seg.idA g.adj).map
          (fun l => l ++ [(g.nextId, haversine (mkAcc latlng seg).proj
            ((alistGet? seg.idA g.coords).getD (0, 0)))]) ∧
      alistGet? seg.idB (findNearestGraphNode latlng g true).2.adj =
        (alistGet? seg.idB g.adj).map
          (fun l => l ++ [(g.nextId, haversine (mkAcc latlng seg).proj
            ((alistGet? seg.idB g.coords).getD (0, 0)))])) ∧
    (∀ i, i ≠ g.nextId → i ≠ seg.idA → i ≠ seg.idB →
      alistGet? i (findNearestGraphNode latlng g true).2.adj = alistGet? i g.adj) := by
  obtain ⟨s1, _, _, _, s5, s6, s7, s8⟩ :=
    snapSplice_fresh (mkAcc latlng seg).proj seg.idA seg.idB g hfresh hadj hA hB
  rw [findNearestGraphNode_snap_eq latlng g seg hne hscan]
  exact ⟨by rw [s1], s8, s5, s6, s7⟩

/-- C6 amended. In snap mode with at least one segment, when the projected
best point rounds to the key of an existing node `k` that is distinct from
both endpoints of the matched segment: no new node is allocated (the id
counter, node map and coordinate map are unchanged), the call returns `k`,
`k`'s entire previous adjacency list is discarded and replaced by exactly the
two arcs to the matched segment's endpoints, and the arcs that other nodes —
including the endpoints — held toward `k` are left in place (their lists are
only appended to). -/
theorem findNearest_snap_existing (latlng : ℚ × ℚ) (g : Graph) (seg : Seg) (k : ℕ)
    {l0 : List (ℕ × ℝ)}
    (hne : g.segments ≠ [])
    (hscan : scanSegments latlng g.segments ⟨⊤, none, latlng, none, none, 0⟩ =
      mkAcc latlng seg)
    (hk : alistGet? (coordKey (mkAcc latlng seg).proj.1 (mkAcc latlng seg).proj.2)
      g.nodes = some k)
    (hkadj : alistGet? k g.adj = some l0)
    (hA : seg.idA ≠ k) (hB : seg.idB ≠ k) :
    (findNearestGraphNode latlng g true).1 = some ⟨k, true, (mkAcc latlng seg).proj⟩ ∧
    (findNearestGraphNode latlng g true).2.nextId = g.nextId ∧
    (findNearestGraphNode latlng g true).2.nodes = g.nodes ∧
    (findNearestGraphNode latlng g true).2.coords = g.coords ∧
    alistGet? k (findNearestGraphNode latlng g true).2.adj =
      some [(seg.idA, haversine (mkAcc latlng seg).proj
              ((alistGet? seg.idA g.coords).getD (0, 0))),
            (seg.idB, haversine (mkAcc latlng seg).proj
              ((alistGet? seg.idB g.coords).getD (0, 0)))] ∧
    (∀ i l, i ≠ k → alistGet? i g.adj = some l →
      ∃ ex, alistGet? i (findNearestGraphNode latlng g true).2.adj = some (l ++ ex)) := by
  obtain ⟨s1, s2, s3, s4, _, s6, _, _, s9⟩ :=
    snapSplice_existing (mkAcc latlng seg).proj seg.idA seg.idB k g hk hkadj hA hB
  rw [findNearestGraphNode_snap_eq latlng g seg hne hscan]
  exact ⟨by rw [s1], s2, s4, s3, s6, s9⟩

/-- A three-node graph with one segment between nodes 1 and 2 and an extra
edge from node 1 to node 3. -/
noncomputable def gC1 : Graph :=
  { nextId := 4
    nodes := [(coordKey 0 0, 1), (coordKey 0 1, 2), (coordKey 1 0, 3)]
    coords := [(1, (0, 0)), (2, (0, 1)), (3, (1, 0))]
    adj := [(1, [(2, haversine (0, 0) (0, 1)), (3, haversine (0, 0) (1, 0))]),
            (2, [(1, haversine (0, 0) (0, 1))]),
            (3, [(1, haversine (0, 0) (1, 0))])]
    segments := [⟨(0, 0), (0, 1), 1, 2⟩] }

/-- The single segment of `gC1`. -/
def segC1 : Seg := ⟨(0, 0), (0, 1), 1, 2⟩

/-- Counterexample to C1 as stated: snapping the query `(0,0)` onto `gC1`
projects exactly onto node 1's coordinate, so `graphAddNode` returns the
existing node 1 and the splice clears its list: the pre-existing arc to node 3
is removed and the returned node's adjacency list has 3 entries (two of them
self-arcs), not 2. -/
theorem snap_onto_endpoint_clears_arcs :
    alistGet? 1 gC1.adj =
      some [(2, haversine (0, 0) (0, 1)), (3, haversine (0, 0) (1, 0))] ∧
    (findNearestGraphNode (0, 0) gC1 true).1 = some ⟨1, true, (0, 0)⟩ ∧
    alistGet? 1 (findNearestGraphNode (0, 0) gC1 true).2.adj =
      some [(1, haversine (0, 0) (0, 0)), (1, haversine (0, 0) (0, 0)),
            (2, haversine (0, 0) (0, 1))] ∧
    (∀ l, alistGet? 1 (findNearestGraphNode (0, 0) gC1 true).2.adj = some l →
      (3, haversine (0, 0) (1, 0)) ∉ l ∧ l.length ≠ 2) := by
  have hpr : nearestPointOnSegment (0, 0) (0, 0) (0, 1) = (0, 0, 0) := by
    unfold nearestPointOnSegment
    norm_num
  have hP : (mkAcc (0, 0) segC1).proj = ((0 : ℚ), (0 : ℚ)) := by
    simp only [mkAcc, segC1]
    rw [hpr]
  have hscan : scanSegments (0, 0) gC1.segments ⟨⊤, none, (0, 0), none, none, 0⟩ =
      mkAcc (0, 0) segC1 := by
    show scanSegments (0, 0) [segC1] _ = _
    rw [scanSegments_cons, if_pos (WithTop.coe_lt_top _)]
    rfl
  have hne : gC1.segments ≠ [] := by simp [gC1]
  have hmain := findNearestGraphNode_snap_eq (0, 0) gC1 segC1 hne hscan
  rw [hP] at hmain
  have hsp : snapSplice ((0 : ℚ), (0 : ℚ)) segC1.idA segC1.idB gC1 =
      (1, { gC1 with adj :=
        [(1, [(1, haversine (0, 0) (0, 0)), (1, haversine (0, 0) (0, 0)),
              (2, haversine (0, 0) (0, 1))]),
         (2, [(1, haversine (0, 0) (0, 1)), (1, haversine (0, 0) (0, 1))]),
         (3, [(1, haversine (0, 0) (1, 0))])] }) := by
    rw [snapSplice_eq]
    norm_num [graphAddNode, gC1, segC1, alistGet?, alistSet, spliceAdj]
  rw [hsp] at hmain
  refine ⟨rfl, by rw [hmain], by rw [hmain]; simp [gC1, alistGet?], ?_⟩
  intro l hl
  rw [hmain] at hl
  simp only [gC1, alistGet?, if_pos rfl] at hl
  have : l = [(1, haversine (0, 0) (0, 0)), (1, haversine (0, 0) (0, 0)),
      (2, haversine (0, 0) (0, 1))] := by
    cases hl
    rfl
  subst this
  constructor
  · simp [Prod.ext_iff]
  · simp

/-- A two-node graph holding the single segment from `(0,0)` to `(0,2)`. -/
noncomputable def gW1 : Graph :=
  { nextId := 3
    nodes := [(coordKey 0 0, 1), (coordKey 0 2, 2)]
    coords := [(1, (0, 0)), (2, (0, 2))]
    adj := [(1, [(2, haversine (0, 0) (0, 2))]),
            (2, [(1, haversine (0, 0) (0, 2))])]
    segments := [⟨(0, 0), (0, 2), 1, 2⟩] }

/-- The single segment of `gW1`. -/
def segW1 : Seg := ⟨(0, 0), (0, 2), 1, 2⟩

/-- Witness for C1 amended: snapping `(1,1)` onto `gW1` projects to the fresh
point `(0,1)`; a new node 3 appears with exactly the two weighted arcs, each
endpoint gains exactly one reverse arc, and the pre-existing arcs survive. -/
theorem findNearest_snap_fresh_witness :
    alistGet? (coordKey 0 1) gW1.nodes = none ∧
    (findNearestGraphNode (1, 1) gW1 true).1 = some ⟨3, true, (0, 1)⟩ ∧
    alistGet? 3 (findNearestGraphNode (1, 1) gW1 true).2.adj =
      some [(1, haversine (0, 1) (0, 0)), (2, haversine (0, 1) (0, 2))] ∧
    alistGet? 1 (findNearestGraphNode (1, 1) gW1 true).2.adj =
      some [(2, haversine (0, 0) (0, 2)), (3, haversine (0, 1) (0, 0))] ∧
    alistGet? 2 (findNearestGraphNode (1, 1) gW1 true).2.adj =
      some [(1, haversine (0, 0) (0, 2)), (3, haversine (0, 1) (0, 2))] := by
  have hpr : nearestPointOnSegment (1, 1) (0, 0) (0, 2) = (0, 1, 1 / 2) := by
    unfold nearestPointOnSegment
    norm_num
  have hP : (mkAcc (1, 1) segW1).proj = ((0 : ℚ), (1 : ℚ)) := by
    simp only [mkAcc, segW1]
    rw [hpr]
  have hscan : scanSegments (1, 1) gW1.segments ⟨⊤, none, (1, 1), none, none, 0⟩ =
      mkAcc (1, 1) segW1 := by
    show scanSegments (1, 1) [segW1] _ = _
    rw [scanSegments_cons, if_pos (WithTop.coe_lt_top _)]
    rfl
  have hne : gW1.segments ≠ [] := by simp [gW1]
  have hfresh0 : alistGet? (coordKey 0 1) gW1.nodes = none := by
    simp [gW1, alistGet?, coordKey, fix6_zero, fix6_one, fix6_two]
  have hfresh : alistGet? (coordKey (mkAcc (1, 1) segW1).proj.1
      (mkAcc (1, 1) segW1).proj.2) gW1.nodes = none := by
    rw [hP]
    exact hfresh0
  have hadj : alistGet? gW1.nextId gW1.adj = none := rfl
  have h := findNearest_snap_fresh (1, 1) gW1 segW1 hne hscan hfresh hadj
    (by decide) (by decide)
  rw [hP] at h
  simp only [show segW1.idA = 1 from rfl, show segW1.idB = 2 from rfl,
    show gW1.nextId = 3 from rfl] at h
  obtain ⟨h1, _, h3, h4, _⟩ := h
  obtain ⟨hA4, hB4⟩ := h4 (by decide)
  refine ⟨hfresh0, h1, ?_, ?_, ?_⟩
  · rw [h3]
    simp [gW1, alistGet?]
  · rw [hA4]
    simp [gW1, alistGet?]
  · rw [hB4]
    simp [gW1, alistGet?]

/-- A two-node graph with the single segment from `(0,0)` to `(1,0)`. -/
noncomputable def gC6 : Graph :=
  { nextId := 3
    nodes := [(coordKey 0 0, 1), (coordKey 1 0, 2)]
    coords := [(1, (0, 0)), (2, (1, 0))]
    adj := [(1, [(2, haversine (0, 0) (1, 0))]),
            (2, [(1, haversine (0, 0) (1, 0))])]
    segments := [⟨(0, 0), (1, 0), 1, 2⟩] }

/-- The single segment of `gC6`. -/
def segC6 : Seg := ⟨(0, 0), (1, 0), 1, 2⟩

/-- Counterexample to C6 as stated: the query `(0,0)` projects onto the key of
the existing node 1, which is also the matched segment's endpoint `idA`; the
call does reuse node 1 and discards its list, but it does not install
"exactly the two arcs to the matched segment's endpoints": the resulting list
has three entries, two of them self-arcs. -/
theorem snap_existing_endpoint_three_arcs :
    (findNearestGraphNode (0, 0) gC6 true).1 = some ⟨1, true, (0, 0)⟩ ∧
    (findNearestGraphNode (0, 0) gC6 true).2.nextId = 3 ∧
    alistGet? 1 (findNearestGraphNode (0, 0) gC6 true).2.adj =
      some [(1, haversine (0, 0) (0, 0)), (1, haversine (0, 0) (0, 0)),
            (2, haversine (0, 0) (1, 0))] ∧
    (∀ l, alistGet? 1 (findNearestGraphNode (0, 0) gC6 true).2.adj = some l →
      l.length ≠ 2) := by
  have hpr : nearestPointOnSegment (0, 0) (0, 0) (1, 0) = (0, 0, 0) := by
    unfold nearestPointOnSegment
    norm_num
  have hP : (mkAcc (0, 0) segC6).proj = ((0 : ℚ), (0 : ℚ)) := by
    simp only [mkAcc, segC6]
    rw [hpr]
  have hscan : scanSegments (0, 0) gC6.segments ⟨⊤, none, (0, 0), none, none, 0⟩ =
      mkAcc (0, 0) segC6 := by
    show scanSegments (0, 0) [segC6] _ = _
    rw [scanSegments_cons, if_pos (WithTop.coe_lt_top _)]
    rfl
  have hne : gC6.segments ≠ [] := by simp [gC6]
  have hmain := findNearestGraphNode_snap_eq (0, 0) gC6 segC6 hne hscan
  rw [hP] at hmain
  have hsp : snapSplice ((0 : ℚ), (0 : ℚ)) segC6.idA segC6.idB gC6 =
      (1, { gC6 with adj :=
        [(1, [(1, haversine (0, 0) (0, 0)), (1, haversine (0, 0) (0, 0)),
              (2, haversine (0, 0) (1, 0))]),
         (2, [(1, haversine (0, 0) (1, 0)), (1, haversine (0, 0) (1, 0))])] }) := by
    rw [snapSplice_eq]
    norm_num [graphAddNode, gC6, segC6, alistGet?, alistSet, spliceAdj]
  rw [hsp] at hmain
  refine ⟨by rw [hmain], by rw [hmain]; rfl, by rw [hmain]; simp [alistGet?], ?_⟩
  intro l hl
  rw [hmain] at hl
  simp only [alistGet?, if_pos rfl] at hl
  have : l = [(1, haversine (0, 0) (0, 0)), (1, haversine (0, 0) (0, 0)),
      (2, haversine (0, 0) (1, 0))] := by
    cases hl
    rfl
  subst this
  simp

/-- A graph whose third node sits exactly on the midpoint key of the single
segment between nodes 1 and 2. -/
noncomputable def gW6 : Graph :=
  { nextId := 4
    nodes := [(coordKey 0 0, 1), (coordKey 0 2, 2), (coordKey 0 1, 3)]
    coords := [(1, (0, 0)), (2, (0, 2)), (3, (0, 1))]
    adj := [(1, [(2, haversine (0, 0) (0, 2)), (3, haversine (0, 0) (0, 1))]),
            (2, [(1, haversine (0, 0) (0, 2))]),
            (3, [(1, haversine (0, 0) (0, 1))])]
    segments := [⟨(0, 0), (0, 2), 1, 2⟩] }

/-- Witness for C6 amended: snapping `(1,1)` onto `gW6` projects to `(0,1)`,
the key of the existing node 3 (distinct from both endpoints): node 3 is
returned with no new allocation, its old list is replaced by exactly the two
arcs, and node 1's old arc toward node 3 is still in place. -/
theorem findNearest_snap_existing_witness :
    alistGet? (coordKey 0 1) gW6.nodes = some 3 ∧
    (findNearestGraphNode (1, 1) gW6 true).1 = some ⟨3, true, (0, 1)⟩ ∧
    (findNearestGraphNode (1, 1) gW6 true).2.nextId = 4 ∧
    (findNearestGraphNode (1, 1) gW6 true).2.nodes = gW6.nodes ∧
    alistGet? 3 (findNearestGraphNode (1, 1) gW6 true).2.adj =
      some [(1, haversine (0, 1) (0, 0)), (2, haversine (0, 1) (0, 2))] ∧
    (∃ ex, alistGet? 1 (findNearestGraphNode (1, 1) gW6 true).2.adj =
      some ([(2, haversine (0, 0) (0, 2)), (3, haversine (0, 0) (0, 1))] ++ ex)) := by
  have hpr : nearestPointOnSegment (1, 1) (0, 0) (0, 2) = (0, 1, 1 / 2) := by
    unfold nearestPointOnSegment
    norm_num
  have hP : (mkAcc (1, 1) segW1).proj = ((0 : ℚ), (1 : ℚ)) := by
    simp only [mkAcc, segW1]
    rw [hpr]
  have hscan : scanSegments (1, 1) gW6.segments ⟨⊤, none, (1, 1), none, none, 0⟩ =
      mkAcc (1, 1) segW1 := by
    show scanSegments (1, 1) [segW1] _ = _
    rw [scanSegments_cons, if_pos (WithTop.coe_lt_top _)]
    rfl
  have hne : gW6.segments ≠ [] := by simp [gW6]
  have hkey : alistGet? (coordKey 0 1) gW6.nodes = some 3 := by
    simp [gW6, alistGet?, coordKey, fix6_zero, fix6_one, fix6_two]
  have hk : alistGet? (coordKey (mkAcc (1, 1) segW1).proj.1
      (mkAcc (1, 1) segW1).proj.2) gW6.nodes = some 3 := by
    rw [hP]
    exact hkey
  have hkadj : alistGet? 3 gW6.adj = some [(1, haversine (0, 0) (0, 1))] := rfl
  have h := findNearest_snap_existing (1, 1) gW6 segW1 3 hne hscan hk hkadj
    (by decide) (by decide)
  rw [hP] at h
  obtain ⟨h1, h2, h3, _, h5, h6⟩ := h
  refine ⟨hkey, h1, h2, h3, ?_, ?_⟩
  · rw [show (segW1.idA : ℕ) = 1 from rfl, show (segW1.idB : ℕ) = 2 from rfl] at h5
    rw [h5]
    simp [gW6, alistGet?]
  · exact h6 1 _ (by decide) rfl

/-! ## C8: the graph invariant -/

/-- The graph invariant of the specification: every node id stored in an
adjacency entry or arc, in the dedup map, or in a segment record resolves to a
coordinate entry, and every stored arc weight is nonnegative. -/
def WF (g : Graph) : Prop :=
  (∀ e ∈ g.adj, ∀ vw ∈ e.2, (alistGet? vw.1 g.coords).isSome = true ∧ 0 ≤ vw.2) ∧
  (∀ kv ∈ g.nodes, (alistGet? kv.2 g.coords).isSome = true) ∧
  (∀ s ∈ g.segments, (alistGet? s.idA g.coords).isSome = true ∧
    (alistGet? s.idB g.coords).isSome = true)

theorem isSome_of_append {κ β : Type} [DecidableEq κ] {k : κ} {l : List (κ × β)}
    (l2 : List (κ × β)) (h : (alistGet? k l).isSome = true) :
    (alistGet? k (l ++ l2)).isSome = true := by
  cases hx : alistGet? k l with
  | some v => rw [alistGet?_append_of_some l2 hx]; rfl
  | none => rw [hx] at h; cases h

theorem alistGet?_some_mem {κ β : Type} [DecidableEq κ] {k : κ} {v : β}
    {l : List (κ × β)} (h : alistGet? k l = some v) : (k, v) ∈ l := by
  induction l with
  | nil => cases h
  | cons a rest ih =>
      obtain ⟨ka, va⟩ := a
      by_cases hk : ka = k
      · subst hk
        simp only [alistGet?, if_pos rfl] at h
        cases h
        exact List.mem_cons_self _ _
      · simp only [alistGet?, if_neg hk] at h
        exact List.mem_cons_of_mem _ (ih h)

theorem graphAddNode_WF (lat lon : ℚ) {g : Graph} (h : WF g) :
    WF (graphAddNode lat lon g).2 := by
  cases hk : alistGet? (coordKey lat lon) g.nodes with
  | some id => simpa [graphAddNode, hk] using h
  | none =>
      obtain ⟨h1, h2, h3⟩ := h
      simp only [graphAddNode, hk]
      refine ⟨?_, ?_, ?_⟩
      · intro e he vw hvw
        rcases List.mem_append.mp he with he' | he'
        · obtain ⟨hs, hw⟩ := h1 e he' vw hvw
          exact ⟨isSome_of_append _ hs, hw⟩
        · simp at he'
          subst he'
          simp at hvw
      · intro kv hkv
        rcases List.mem_append.mp hkv with hkv' | hkv'
        · exact isSome_of_append _ (h2 kv hkv')
        · simp at hkv'
          subst hkv'
          exact alistGet?_append_singleton_self _ _ _
      · intro s hs
        obtain ⟨hsA, hsB⟩ := h3 s hs
        exact ⟨isSome_of_append _ hsA, isSome_of_append _ hsB⟩

theorem alistSet_push_preserve {P : ℕ × ℝ → Prop} (k : ℕ) (x : ℕ × ℝ) (hx : P x)
    {L : List (ℕ × List (ℕ × ℝ))} (hL : ∀ e ∈ L, ∀ vw ∈ e.2, P vw) :
    ∀ e ∈ alistSet k (fun l => l ++ [x]) L, ∀ vw ∈ e.2, P vw := by
  intro e he vw hvw
  rcases mem_alistSet he with he' | ⟨_, v, hv, he2⟩
  · exact hL e he' vw hvw
  · rw [he2] at hvw
    rcases List.mem_append.mp hvw with hvw' | hvw'
    · exact hL (k, v) hv vw hvw'
    · simp at hvw'
      rw [hvw']
      exact hx

theorem alistSet_clear_preserve {P : ℕ × ℝ → Prop} (k : ℕ)
    {L : List (ℕ × List (ℕ × ℝ))} (hL : ∀ e ∈ L, ∀ vw ∈ e.2, P vw) :
    ∀ e ∈ alistSet k (fun _ => []) L, ∀ vw ∈ e.2, P vw := by
  intro e he vw hvw
  rcases mem_alistSet he with he' | ⟨_, v, hv, he2⟩
  · exact hL e he' vw hvw
  · rw [he2] at hvw
    cases hvw

theorem graphAddEdge_WF (idA idB : ℕ) {g : Graph} (h : WF g)
    (hA : (alistGet? idA g.coords).isSome = true)
    (hB : (alistGet? idB g.coords).isSome = true) :
    WF (graphAddEdge idA idB g) := by
  obtain ⟨h1, h2, h3⟩ := h
  refine ⟨?_, h2, ?_⟩
  · show ∀ e ∈ alistSet idB _ (alistSet idA _ g.adj), _
    exact alistSet_push_preserve idB _ ⟨hA, haversine_nonneg _ _⟩
      (alistSet_push_preserve idA _ ⟨hB, haversine_nonneg _ _⟩ h1)
  · intro s hs
    rcases List.mem_append.mp hs with hs' | hs'
    · exact h3 s hs'
    · simp at hs'
      rw [hs']
      exact ⟨hA, hB⟩

theorem graphAddNode_result_coords (lat lon : ℚ) {g : Graph} (h : WF g) :
    (alistGet? (graphAddNode lat lon g).1 (graphAddNode lat lon g).2.coords).isSome =
      true := by
  cases hk : alistGet? (coordKey lat lon) g.nodes with
  | some id =>
      simp only [graphAddNode, hk]
      exact h.2.1 _ (alistGet?_some_mem hk)
  | none =>
      simp only [graphAddNode, hk]
      exact alistGet?_append_singleton_self _ _ _

theorem graphAddNode_coords_mono (lat lon : ℚ) (g : Graph) {k : ℕ}
    (h : (alistGet? k g.coords).isSome = true) :
    (alistGet? k (graphAddNode lat lon g).2.coords).isSome = true := by
  cases hk : alistGet? (coordKey lat lon) g.nodes with
  | some id => simpa [graphAddNode, hk] using h
  | none =>
      simp only [graphAddNode, hk]
      exact isSome_of_append _ h

theorem snapSplice_WF (proj : ℚ × ℚ) (idA idB : ℕ) {g : Graph} (h : WF g)
    (hA : (alistGet? idA g.coords).isSome = true)
    (hB : (alistGet? idB g.coords).isSome = true) :
    WF (snapSplice proj idA idB g).2 := by
  obtain ⟨w1, w2, w3⟩ := graphAddNode_WF proj.1 proj.2 h
  have ht := graphAddNode_result_coords proj.1 proj.2 h
  have hA' := graphAddNode_coords_mono proj.1 proj.2 g hA
  have hB' := graphAddNode_coords_mono proj.1 proj.2 g hB
  rw [snapSplice_eq]
  refine ⟨?_, w2, w3⟩
  show ∀ e ∈ spliceAdj _ idA idB _ _ _, _
  unfold spliceAdj
  exact alistSet_push_preserve idB _ ⟨ht, haversine_nonneg _ _⟩
    (alistSet_push_preserve _ _ ⟨hB', haversine_nonneg _ _⟩
      (alistSet_push_preserve idA _ ⟨ht, haversine_nonneg _ _⟩
        (alistSet_push_preserve _ _ ⟨hA', haversine_nonneg _ _⟩
          (alistSet_clear_preserve _ w1))))

/-- C8. Every mutating operation — `graphAddNode`, `graphAddEdge` on ids that
resolve to coordinates, and `findNearestGraphNode` in either mode — preserves
the invariant that all node ids reachable from adjacency lists, the dedup map
or segment records have coordinate entries and that all arc weights are
nonnegative. -/
theorem graph_mutations_preserve_WF :
    (∀ lat lon g, WF g → WF (graphAddNode lat lon g).2) ∧
    (∀ idA idB g, WF g → (alistGet? idA g.coords).isSome = true →
      (alistGet? idB g.coords).isSome = true → WF (graphAddEdge idA idB g)) ∧
    (∀ latlng g snap, WF g → WF (findNearestGraphNode latlng g snap).2) := by
  refine ⟨fun lat lon g h => graphAddNode_WF lat lon h,
    fun idA idB g h hA hB => graphAddEdge_WF idA idB h hA hB,
    fun latlng g snap h => ?_⟩
  cases snap with
  | false =>
      cases hid : (scanCoords latlng g.coords ⟨⊤, none, latlng, none, none, 0⟩).id with
      | none => simpa [findNearestGraphNode, hid] using h
      | some id => simpa [findNearestGraphNode, hid] using h
  | true =>
      cases hseg : g.segments with
      | nil =>
          have hemp : g.segments.isEmpty = true := by rw [hseg]; rfl
          cases hid : (scanCoords latlng g.coords ⟨⊤, none, latlng, none, none, 0⟩).id with
          | none => simpa [findNearestGraphNode, hemp, hid] using h
          | some id => simpa [findNearestGraphNode, hemp, hid] using h
      | cons s rest =>
          have hne : g.segments ≠ [] := by rw [hseg]; exact List.cons_ne_nil _ _
          obtain ⟨seg, hmem, hscan⟩ :=
            scanSegments_of_ne_nil latlng hne ⟨⊤, none, latlng, none, none, 0⟩ rfl
          rw [findNearestGraphNode_snap_eq latlng g seg hne hscan]
          obtain ⟨hsA, hsB⟩ := h.2.2 seg hmem
          exact snapSplice_WF (mkAcc latlng seg).proj seg.idA seg.idB h hsA hsB

/-- Witness for C8: the invariant holds for the empty graph, survives adding
node `(0,0)`, a self-edge on node 1, and a snapping call on `gW1`. -/
theorem graph_mutations_preserve_WF_witness :
    WF emptyGraph ∧
    WF (graphAddNode 0 0 emptyGraph).2 ∧
    WF (graphAddEdge 1 1 (graphAddNode 0 0 emptyGraph).2) ∧
    WF gW1 ∧
    WF (findNearestGraphNode (1, 1) gW1 true).2 := by
  have h0 : WF emptyGraph := by
    refine ⟨?_, ?_, ?_⟩ <;> simp [emptyGraph]
  have h1 := graph_mutations_preserve_WF.1 0 0 emptyGraph h0
  have hc : (alistGet? 1 (graphAddNode 0 0 emptyGraph).2.coords).isSome = true := rfl
  have h2 := graph_mutations_preserve_WF.2.1 1 1 _ h1 hc hc
  have hW : WF gW1 := by
    refine ⟨?_, ?_, ?_⟩ <;> simp [gW1, alistGet?, haversine_nonneg]
  exact ⟨h0, h1, h2, hW, graph_mutations_preserve_WF.2.2 (1, 1) gW1 true hW⟩

/-! ## Dijkstra proof preliminaries -/

/-- The distance slot of a node (`Infinity` outside the arrays). -/
def dAt (st : DijkstraState) (v : ℕ) : WithTop ℝ := st.dist.getD v ⊤

/-- The predecessor slot of a node (0 meaning unset). -/
def pAt (st : DijkstraState) (v : ℕ) : ℕ := st.prev.getD v 0

/-- The visited flag of a node. -/
def vAt (st : DijkstraState) (v : ℕ) : Bool := st.visited.getD v false

/-- Number of unvisited slots. -/
def unvisCount (st : DijkstraState) : ℕ := st.visited.countP (fun b => !b)

/-- Arc targets lie in `1..N` and weights are nonnegative. -/
def AdjWF (adj : ℕ → List (ℕ × ℝ)) (N : ℕ) : Prop :=
  ∀ u v w, (v, w) ∈ adj u → (1 ≤ v ∧ v ≤ N) ∧ 0 ≤ w

/-- A node list is a path through the adjacency structure with the given total
cost: consecutive nodes are joined by arcs and the costs of the traversed arcs
sum to the total. -/
inductive ListPathCost (adj : ℕ → List (ℕ × ℝ)) : List ℕ → ℝ → Prop
  | single (u : ℕ) : ListPathCost adj [u] 0
  | cons {u v : ℕ} {rest : List ℕ} {w c : ℝ} :
      (v, w) ∈ adj u → ListPathCost adj (v :: rest) c →
      ListPathCost adj (u :: v :: rest) (w + c)

/-- The predecessor chain from `v` reaches the start node within `n` steps,
through visited intermediate nodes. -/
def chainReaches (st : DijkstraState) (startId : ℕ) : ℕ → ℕ → Prop
  | 0, v => v = startId
  | n + 1, v => v = startId ∨
      (pAt st v ≠ 0 ∧ vAt st (pAt st v) = true ∧ chainReaches st startId n (pAt st v))

theorem getD_set_self {α : Type} (l : List α) (i : ℕ) (x d : α) (h : i < l.length) :
    (l.set i x).getD i d = x := by
  rw [List.getD_eq_getElem?_getD, List.getElem?_set_self h]
  rfl

theorem getD_set_ne {α : Type} (l : List α) (i j : ℕ) (x d : α) (h : i ≠ j) :
    (l.set i x).getD j d = l.getD j d := by
  rw [List.getD_eq_getElem?_getD, List.getElem?_set_ne h, ← List.getD_eq_getElem?_getD]

theorem getD_replicate_self {α : Type} (n i : ℕ) (x : α) :
    (List.replicate n x).getD i x = x := by
  rw [List.getD_eq_getElem?_getD, List.getElem?_replicate]
  split <;> rfl

theorem getD_of_len_le {α : Type} (l : List α) (i : ℕ) (d : α) (h : l.length ≤ i) :
    l.getD i d = d := by
  rw [List.getD_eq_getElem?_getD, List.getElem?_eq_none h]
  rfl

theorem countP_notb_set_true :
    ∀ (l : List Bool) (u : ℕ), l.getD u false = false → u < l.length →
      (l.set u true).countP (fun b => !b) + 1 = l.countP (fun b => !b) := by
  intro l
  induction l with
  | nil => intro u _ h; simp at h
  | cons a rest ih =>
      intro u hget hlen
      cases u with
      | zero =>
          simp only [List.getD_cons_zero] at hget
          subst hget
          simp [List.countP_cons]
      | succ u' =>
          simp only [List.getD_cons_succ] at hget
          simp only [List.length_cons, Nat.succ_lt_succ_iff] at hlen
          have hih := ih u' hget hlen
          simp only [List.set, List.countP_cons]
          omega

theorem countP_notb_pos (l : List Bool) (u : ℕ) (hget : l.getD u false = false)
    (hlen : u < l.length) : 1 ≤ l.countP (fun b => !b) := by
  have hu : l.get ⟨u, hlen⟩ = false := by
    rw [List.getD_eq_getElem?_getD, List.getElem?_eq_getElem hlen] at hget
    exact hget
  have : l.get ⟨u, hlen⟩ ∈ l := l.get_mem _ _
  rw [hu] at this
  exact List.countP_pos_iff.mpr ⟨false, this, rfl⟩

theorem ListPathCost_nonneg {adj : ℕ → List (ℕ × ℝ)} {N : ℕ} (hwf : AdjWF adj N)
    {l : List ℕ} {c : ℝ} (h : ListPathCost adj l c) : 0 ≤ c := by
  induction h with
  | single u => exact le_rfl
  | cons harc hrest ih => exact add_nonneg (hwf _ _ _ harc).2 ih

theorem ListPathCost_append_arc {adj : ℕ → List (ℕ × ℝ)} {l : List ℕ} {c : ℝ}
    (h : ListPathCost adj l c) :
    ∀ {x y : ℕ} {w : ℝ}, l.getLast? = some x → (y, w) ∈ adj x →
      ListPathCost adj (l ++ [y]) (c + w) := by
  induction h with
  | single u =>
      intro x y w hlast harc
      simp only [List.getLast?_singleton, Option.some.injEq] at hlast
      subst hlast
      have h1 := ListPathCost.cons harc (ListPathCost.single y)
      rw [show (0 : ℝ) + w = w + 0 by ring]
      exact h1
  | @cons u v rest w1 c1 harc1 hrest ih =>
      intro x y w hlast harc
      have hlast' : (v :: rest).getLast? = some x := by
        rw [← hlast]
        exact List.getLast?_cons_cons.symm
      have h2 := ih hlast' harc
      rw [List.cons_append, add_assoc]
      exact ListPathCost.cons harc1 h2

/-- The selection fold over the first `n` indices. -/
noncomputable def findMinAux (dist : List (WithTop ℝ)) (visited : List Bool) (n : ℕ) :
    Option ℕ × WithTop ℝ :=
  (List.range n).foldl (fun acc j =>
    if visited.getD j false = false ∧ dist.getD j ⊤ < acc.2 then (some j, dist.getD j ⊤)
    else acc) ((none : Option ℕ), (⊤ : WithTop ℝ))

theorem findMinLoop_eq_aux (dist : List (WithTop ℝ)) (visited : List Bool) (N : ℕ) :
    findMinLoop dist visited N = (findMinAux dist visited (N + 1)).1 := rfl

theorem findMinAux_spec (dist : List (WithTop ℝ)) (visited : List Bool) : ∀ n : ℕ,
    ((findMinAux dist visited n).1 = none →
      (findMinAux dist visited n).2 = ⊤ ∧
      ∀ j, j < n → visited.getD j false = false → dist.getD j ⊤ = ⊤) ∧
    (∀ u, (findMinAux dist visited n).1 = some u →
      u < n ∧ visited.getD u false = false ∧
      (findMinAux dist visited n).2 = dist.getD u ⊤ ∧ dist.getD u ⊤ < ⊤ ∧
      ∀ j, j < n → visited.getD j false = false → dist.getD u ⊤ ≤ dist.getD j ⊤) := by
  intro n
  induction n with
  | zero =>
      refine ⟨fun _ => ⟨rfl, fun j hj _ => absurd hj (Nat.not_lt_zero j)⟩, fun u hu => ?_⟩
      cases hu
  | succ n ih =>
      have hstep : findMinAux dist visited (n + 1) =
          (if visited.getD n false = false ∧
              dist.getD n ⊤ < (findMinAux dist visited n).2 then
            (some n, dist.getD n ⊤)
          else findMinAux dist visited n) := by
        rw [findMinAux, List.range_succ, List.foldl_append]
        rfl
      by_cases hc : visited.getD n false = false ∧
          dist.getD n ⊤ < (findMinAux dist visited n).2
      · rw [hstep, if_pos hc]
        refine ⟨fun h => absurd (show some n = (none : Option ℕ) from h) (by simp),
          fun u hu => ?_⟩
        have hu' : n = u := by
          have h2 : some n = some u := hu
          injection h2
        subst hu'
        refine ⟨Nat.lt_succ_self n, hc.1, rfl, lt_of_lt_of_le hc.2 le_top, ?_⟩
        intro j hj hvj
        rcases Nat.lt_succ_iff_lt_or_eq.mp hj with hj' | hj'
        · cases hacc : (findMinAux dist visited n).1 with
          | none =>
              have := (ih.1 hacc).2 j hj' hvj
              rw [this]
              exact le_top
          | some u' =>
              obtain ⟨_, _, h2, _, h5⟩ := ih.2 u' hacc
              rw [h2] at hc
              exact le_trans (le_of_lt hc.2) (h5 j hj' hvj)
        · subst hj'
          exact le_rfl
      · rw [hstep, if_neg hc]
        refine ⟨fun h => ?_, fun u hu => ?_⟩
        · obtain ⟨h2, h3⟩ := ih.1 h
          refine ⟨h2, fun j hj hvj => ?_⟩
          rcases Nat.lt_succ_iff_lt_or_eq.mp hj with hj' | hj'
          · exact h3 j hj' hvj
          · subst hj'
            rw [h2] at hc
            rcases not_and_or.mp hc with hv | hd
            · exact absurd hvj hv
            · exact not_lt_top_iff.mp hd
        · obtain ⟨h1, h2, h3, h4, h5⟩ := ih.2 u hu
          refine ⟨Nat.lt_succ_of_lt h1, h2, h3, h4, fun j hj hvj => ?_⟩
          rcases Nat.lt_succ_iff_lt_or_eq.mp hj with hj' | hj'
          · exact h5 j hj' hvj
          · subst hj'
            rcases not_and_or.mp hc with hv | hd
            · exact absurd hvj hv
            · rw [← h3]
              exact not_lt.mp hd

theorem findMinLoop_none {dist : List (WithTop ℝ)} {visited : List Bool} {N : ℕ}
    (h : findMinLoop dist visited N = none) :
    ∀ j, j ≤ N → visited.getD j false = false → dist.getD j ⊤ = ⊤ := by
  rw [findMinLoop_eq_aux] at h
  intro j hj hvj
  exact ((findMinAux_spec dist visited (N + 1)).1 h).2 j (Nat.lt_succ_of_le hj) hvj

theorem findMinLoop_some {dist : List (WithTop ℝ)} {visited : List Bool} {N u : ℕ}
    (h : findMinLoop dist visited N = some u) :
    u ≤ N ∧ visited.getD u false = false ∧ dist.getD u ⊤ < ⊤ ∧
      ∀ j, j ≤ N → visited.getD j false = false → dist.getD u ⊤ ≤ dist.getD j ⊤ := by
  rw [findMinLoop_eq_aux] at h
  obtain ⟨h1, h2, _, h4, h5⟩ := (findMinAux_spec dist visited (N + 1)).2 u h
  exact ⟨Nat.lt_succ_iff.mp h1, h2, h4,
    fun j hj hvj => h5 j (Nat.lt_succ_of_le hj) hvj⟩

/-- The core loop invariant: array shapes, nonnegative finite-or-infinite
distances rooted at the start, the relation between predecessor slots,
distances and visited flags, and well-founded predecessor chains. -/
structure Core (adj : ℕ → List (ℕ × ℝ)) (startId endId N : ℕ)
    (st : DijkstraState) : Prop where
  lenD : st.dist.length = N + 1
  lenP : st.prev.length = N + 1
  lenV : st.visited.length = N + 1
  nn : ∀ v, 0 ≤ dAt st v
  start0 : dAt st startId = 0
  pstart : pAt st startId = 0
  d0 : dAt st 0 = ⊤
  vend : vAt st endId = false
  visD : ∀ u, vAt st u = true → dAt st u ≠ ⊤
  visLe : ∀ a b, vAt st a = true → vAt st b = false → dAt st a ≤ dAt st b
  prevP : ∀ v, pAt st v ≠ 0 → vAt st (pAt st v) = true ∧
      ∃ w, (v, w) ∈ adj (pAt st v) ∧ dAt st v = dAt st (pAt st v) + (w : WithTop ℝ)
  unset : ∀ v, pAt st v = 0 → v ≠ startId → dAt st v = ⊤
  chain : ∀ v, pAt st v ≠ 0 →
      ∃ n, chainReaches st startId n v ∧ n + unvisCount st ≤ N + 1

/-- The invariant between loop iterations: the core plus full relaxation of
every visited node. -/
structure Inv (adj : ℕ → List (ℕ × ℝ)) (startId endId N : ℕ) (st : DijkstraState)
    extends Core adj startId endId N st : Prop where
  relaxed : ∀ a, vAt st a = true → ∀ v w, (v, w) ∈ adj a →
      dAt st v ≤ dAt st a + (w : WithTop ℝ)

/-- The invariant inside the relaxation fold of the just-visited node `u`:
the core, relaxation of all previously visited nodes, relaxation of the
already-processed prefix of `u`'s row, and bookkeeping facts about `u`. -/
structure Mid (adj : ℕ → List (ℕ × ℝ)) (startId endId N u : ℕ)
    (processed : List (ℕ × ℝ)) (st : DijkstraState)
    extends Core adj startId endId N st : Prop where
  relaxedOld : ∀ a, vAt st a = true → a ≠ u → ∀ v w, (v, w) ∈ adj a →
      dAt st v ≤ dAt st a + (w : WithTop ℝ)
  relaxedU : ∀ vw ∈ processed, dAt st vw.1 ≤ dAt st u + ((vw.2 : ℝ) : WithTop ℝ)
  uVis : vAt st u = true
  uLe : ∀ b, vAt st b = false → dAt st u ≤ dAt st b
  leU : ∀ a, vAt st a = true → dAt st a ≤ dAt st u
  uNe0 : u ≠ 0
  uNeEnd : u ≠ endId
  uN : u ≤ N
  chainU : u = startId ∨
      ∃ m, chainReaches st startId m u ∧ m + 1 + unvisCount st ≤ N + 1

theorem chainReaches_stable {st st' : DijkstraState} {startId : ℕ}
    (hmono : ∀ y, vAt st y = true → pAt st' y = pAt st y ∧ vAt st' y = true) :
    ∀ n x, chainReaches st startId n x → pAt st' x = pAt st x →
      chainReaches st' startId n x := by
  intro n
  induction n with
  | zero => intro x h _; exact h
  | succ n ih =>
      intro x h hx
      rcases h with h | ⟨hp, hv, hc⟩
      · exact Or.inl h
      · right
        rw [hx]
        exact ⟨hp, (hmono _ hv).2, ih _ hc (hmono _ hv).1⟩

theorem Inv_init (adj : ℕ → List (ℕ × ℝ)) (startId endId N : ℕ)
    (h1 : 1 ≤ startId) (hN : startId ≤ N) :
    Inv adj startId endId N
      ⟨(List.replicate (N + 1) (⊤ : WithTop ℝ)).set startId 0,
        List.replicate (N + 1) 0, List.replicate (N + 1) false⟩ := by
  set st0 : DijkstraState :=
    ⟨(List.replicate (N + 1) (⊤ : WithTop ℝ)).set startId 0,
      List.replicate (N + 1) 0, List.replicate (N + 1) false⟩ with hst0
  have hlenr : (List.replicate (N + 1) (⊤ : WithTop ℝ)).length = N + 1 :=
    List.length_replicate _ _
  have hd : ∀ v, dAt st0 v = if v = startId then 0 else ⊤ := by
    intro v
    by_cases hv : v = startId
    · subst hv
      rw [if_pos rfl]
      exact getD_set_self _ _ _ _ (by rw [hlenr]; omega)
    · rw [if_neg hv, dAt, hst0]
      show ((List.replicate (N + 1) (⊤ : WithTop ℝ)).set startId 0).getD v ⊤ = ⊤
      rw [getD_set_ne _ _ _ _ _ (fun hh => hv hh.symm), getD_replicate_self]
  have hp : ∀ v, pAt st0 v = 0 := fun v => getD_replicate_self _ _ _
  have hv : ∀ v, vAt st0 v = false := fun v => getD_replicate_self _ _ _
  refine ⟨⟨?_, ?_, ?_, ?_, ?_, ?_, ?_, ?_, ?_, ?_, ?_, ?_, ?_⟩, ?_⟩
  · simp [hst0]
  · simp [hst0]
  · simp [hst0]
  · intro v
    rw [hd v]
    split
    · exact le_rfl
    · exact le_top
  · rw [hd startId, if_pos rfl]
  · exact hp startId
  · rw [hd 0, if_neg (by omega)]
  · exact hv endId
  · intro u hu
    rw [hv u] at hu
    cases hu
  · intro a b ha _
    rw [hv a] at ha
    cases ha
  · intro v hpv
    exact absurd (hp v) hpv
  · intro v _ hvs
    rw [hd v, if_neg hvs]
  · intro v hpv
    exact absurd (hp v) hpv
  · intro a ha
    rw [hv a] at ha
    cases ha

theorem visit_mid {adj : ℕ → List (ℕ × ℝ)} {startId endId N : ℕ} {st : DijkstraState}
    {u : ℕ} (hinv : Inv adj startId endId N st)
    (hmin : findMinLoop st.dist st.visited N = some u) (hne : u ≠ endId) :
    Mid adj startId endId N u [] { st with visited := st.visited.set u true } ∧
    unvisCount { st with visited := st.visited.set u true } + 1 = unvisCount st := by
  obtain ⟨huN, huUnvis, huLt, humin⟩ := findMinLoop_some hmin
  set st1 : DijkstraState := { st with visited := st.visited.set u true } with hst1
  have hulen : u < st.visited.length := by rw [hinv.lenV]; omega
  have hvAt : ∀ v, vAt st1 v = if v = u then true else vAt st v := by
    intro v
    by_cases hv : v = u
    · subst hv
      rw [if_pos rfl]
      exact getD_set_self _ _ _ _ hulen
    · rw [if_neg hv]
      exact getD_set_ne _ _ _ _ _ (fun hh => hv hh.symm)
  have hvmono : ∀ y, vAt st y = true → vAt st1 y = true := by
    intro y hy
    rw [hvAt y]
    split
    · rfl
    · exact hy
  have hcnt : unvisCount st1 + 1 = unvisCount st :=
    countP_notb_set_true st.visited u huUnvis hulen
  have hdAt : ∀ v, dAt st1 v = dAt st v := fun v => rfl
  have hpAt : ∀ v, pAt st1 v = pAt st v := fun v => rfl
  have hdBig : ∀ b, N < b → dAt st b = ⊤ := by
    intro b hb
    exact getD_of_len_le _ _ _ (by rw [hinv.lenD]; omega)
  have huLe : ∀ b, vAt st1 b = false → dAt st1 b = dAt st b ∧ b ≠ u ∧ vAt st b = false := by
    intro b hb
    rw [hvAt b] at hb
    by_cases hbu : b = u
    · rw [if_pos hbu] at hb
      cases hb
    · rw [if_neg hbu] at hb
      exact ⟨rfl, hbu, hb⟩
  have hminLe : ∀ b, vAt st b = false → dAt st u ≤ dAt st b := by
    intro b hb
    by_cases hbN : b ≤ N
    · exact humin b hbN hb
    · rw [hdBig b (by omega)]
      exact le_top
  have hu0 : u ≠ 0 := by
    intro hh
    have h2 : dAt st u < ⊤ := huLt
    rw [hh, hinv.d0] at h2
    exact absurd h2 (lt_irrefl _)
  refine ⟨⟨⟨?_, ?_, ?_, ?_, ?_, ?_, ?_, ?_, ?_, ?_, ?_, ?_, ?_⟩,
    ?_, ?_, ?_, ?_, ?_, hu0, hne, huN, ?_⟩, hcnt⟩
  · exact hinv.lenD
  · exact hinv.lenP
  · show (st.visited.set u true).length = N + 1
    rw [List.length_set]
    exact hinv.lenV
  · exact hinv.nn
  · exact hinv.start0
  · exact hinv.pstart
  · exact hinv.d0
  · rw [hvAt endId, if_neg (fun hh => hne hh.symm)]
    exact hinv.vend
  · intro x hx
    rw [hvAt x] at hx
    by_cases hxu : x = u
    · subst hxu
      exact huLt.ne
    · rw [if_neg hxu] at hx
      exact hinv.visD x hx
  · intro a b ha hb
    obtain ⟨_, hbu, hbf⟩ := huLe b hb
    rw [hvAt a] at ha
    by_cases hau : a = u
    · subst hau
      exact hminLe b hbf
    · rw [if_neg hau] at ha
      exact hinv.visLe a b ha hbf
  · intro v hpv
    obtain ⟨hvis, w, harc, hdist⟩ := hinv.prevP v hpv
    exact ⟨hvmono _ hvis, w, harc, hdist⟩
  · exact hinv.unset
  · intro v hpv
    obtain ⟨n, hreach, hbound⟩ := hinv.chain v hpv
    refine ⟨n, @chainReaches_stable st st1 startId
      (fun y hy => ⟨rfl, hvmono y hy⟩) n v hreach rfl, ?_⟩
    omega
  · intro a ha hau v w harc
    rw [hvAt a, if_neg hau] at ha
    exact hinv.relaxed a ha v w harc
  · intro vw hvw
    cases hvw
  · rw [hvAt u, if_pos rfl]
  · intro b hb
    obtain ⟨_, _, hbf⟩ := huLe b hb
    exact hminLe b hbf
  · intro a ha
    rw [hvAt a] at ha
    by_cases hau : a = u
    · subst hau
      exact le_rfl
    · rw [if_neg hau] at ha
      exact hinv.visLe a u ha huUnvis
  · by_cases hus : u = startId
    · exact Or.inl hus
    · right
      have hpu : pAt st u ≠ 0 := by
        intro hh
        exact huLt.ne (hinv.unset u hh hus)
      obtain ⟨m, hreach, hbound⟩ := hinv.chain u hpu
      refine ⟨m, @chainReaches_stable st st1 startId
        (fun y hy => ⟨rfl, hvmono y hy⟩) m u hreach rfl, ?_⟩
      omega

theorem countP_notb_lt_of_true :
    ∀ (l : List Bool) (u : ℕ), l.getD u false = true → u < l.length →
      l.countP (fun b => !b) + 1 ≤ l.length := by
  intro l
  induction l with
  | nil => intro u _ h; simp at h
  | cons a rest ih =>
      intro u hget hlen
      cases u with
      | zero =>
          simp only [List.getD_cons_zero] at hget
          subst hget
          have h1 : List.countP (fun b => !b) rest ≤ rest.length :=
            List.countP_le_length _
          have hcp : List.countP (fun b => !b) (true :: rest) =
              List.countP (fun b => !b) rest := by
            simp [List.countP_cons]
          rw [hcp, List.length_cons]
          omega
      | succ u' =>
          simp only [List.getD_cons_succ] at hget
          simp only [List.length_cons, Nat.succ_lt_succ_iff] at hlen
          have := ih u' hget hlen
          simp only [List.countP_cons, List.length_cons]
          have hb : (if (!a) = true then 1 else 0) ≤ 1 := by split <;> omega
          omega

theorem relaxStep_mid {adj : ℕ → List (ℕ × ℝ)} {startId endId N u : ℕ}
    {processed : List (ℕ × ℝ)} {st : DijkstraState} {vw : ℕ × ℝ}
    (hwf : AdjWF adj N) (harc : vw ∈ adj u)
    (h : Mid adj startId endId N u processed st) :
    Mid adj startId endId N u (processed ++ [vw]) (relaxStep u st vw) ∧
    (relaxStep u st vw).visited = st.visited := by
  obtain ⟨v, w⟩ := vw
  obtain ⟨⟨hvN1, hvN⟩, hw⟩ := hwf u v w harc
  have hw0 : (0 : WithTop ℝ) ≤ ((w : ℝ) : WithTop ℝ) := by exact_mod_cast hw
  have hvdlen : v < st.dist.length := by rw [h.lenD]; omega
  have hvplen : v < st.prev.length := by rw [h.lenP]; omega
  cases hget : st.dist.get? v with
  | none =>
      exfalso
      have hlen := List.get?_eq_none.mp hget
      rw [h.lenD] at hlen
      omega
  | some dv =>
      have hdv : dAt st v = dv := by
        rw [dAt, List.getD_eq_get?, hget]
        rfl
      have hndLe : dAt st u ≤ st.dist.getD u ⊤ + ((w : ℝ) : WithTop ℝ) :=
        le_add_of_nonneg_right hw0
      by_cases hlt : st.dist.getD u ⊤ + ((w : ℝ) : WithTop ℝ) < dv
      · -- the relaxation fires
        set nd : WithTop ℝ := st.dist.getD u ⊤ + ((w : ℝ) : WithTop ℝ) with hnd
        set st' : DijkstraState :=
          { st with dist := st.dist.set v nd, prev := st.prev.set v u } with hst'
        have hstep : relaxStep u st (v, w) = st' := by
          simp only [relaxStep, hget]
          rw [if_pos hlt]
        have hvu : v ≠ u := by
          intro hh
          rw [← hdv, hh] at hlt
          exact absurd hlt (not_lt.mpr hndLe)
        have hvunvis : vAt st v = false := by
          cases hvv : vAt st v with
          | false => rfl
          | true =>
              exfalso
              have h1 : dAt st v ≤ dAt st u := h.leU v hvv
              rw [hdv] at h1
              exact absurd (lt_of_lt_of_le hlt h1) (not_lt.mpr hndLe)
        have hvstart : v ≠ startId := by
          intro hh
          rw [← hdv, hh, h.start0] at hlt
          exact absurd hlt (not_lt.mpr (add_nonneg (h.nn u) hw0))
        have hv0 : v ≠ 0 := by omega
        have hdAt : ∀ x, dAt st' x = if x = v then nd else dAt st x := by
          intro x
          by_cases hx : x = v
          · subst hx
            rw [if_pos rfl]
            exact getD_set_self _ _ _ _ hvdlen
          · rw [if_neg hx]
            exact getD_set_ne _ _ _ _ _ (fun hh => hx hh.symm)
        have hpAt : ∀ x, pAt st' x = if x = v then u else pAt st x := by
          intro x
          by_cases hx : x = v
          · subst hx
            rw [if_pos rfl]
            exact getD_set_self _ _ _ _ hvplen
          · rw [if_neg hx]
            exact getD_set_ne _ _ _ _ _ (fun hh => hx hh.symm)
        have hvAt : ∀ x, vAt st' x = vAt st x := fun x => rfl
        have hcnt : unvisCount st' = unvisCount st := rfl
        have hdLe : ∀ x, dAt st' x ≤ dAt st x := by
          intro x
          rw [hdAt x]
          by_cases hx : x = v
          · rw [if_pos hx, hx, hdv]
            exact le_of_lt hlt
          · rw [if_neg hx]
        have hdVis : ∀ x, vAt st x = true → dAt st' x = dAt st x := by
          intro x hx
          rw [hdAt x, if_neg (fun hh => by rw [hh] at hx; rw [hvunvis] at hx; cases hx)]
        have hmono : ∀ y, vAt st y = true → pAt st' y = pAt st y ∧ vAt st' y = true := by
          intro y hy
          refine ⟨?_, by rw [hvAt y]; exact hy⟩
          rw [hpAt y, if_neg (fun hh => by rw [hh] at hy; rw [hvunvis] at hy; cases hy)]
        rw [hstep]
        refine ⟨⟨⟨?_, ?_, ?_, ?_, ?_, ?_, ?_, ?_, ?_, ?_, ?_, ?_, ?_⟩,
          ?_, ?_, ?_, ?_, ?_, h.uNe0, h.uNeEnd, h.uN, ?_⟩, rfl⟩
        · show (st.dist.set v nd).length = N + 1
          rw [List.length_set]
          exact h.lenD
        · show (st.prev.set v u).length = N + 1
          rw [List.length_set]
          exact h.lenP
        · exact h.lenV
        · intro x
          rw [hdAt x]
          split
          · exact add_nonneg (h.nn u) hw0
          · exact h.nn x
        · rw [hdAt startId, if_neg (Ne.symm hvstart)]
          exact h.start0
        · rw [hpAt startId, if_neg (Ne.symm hvstart)]
          exact h.pstart
        · rw [hdAt 0, if_neg (Ne.symm hv0)]
          exact h.d0
        · rw [hvAt endId]
          exact h.vend
        · intro x hx
          rw [hvAt x] at hx
          rw [hdVis x hx]
          exact h.visD x hx
        · intro a b ha hb
          rw [hvAt a] at ha
          rw [hvAt b] at hb
          rw [hdVis a ha, hdAt b]
          by_cases hbv : b = v
          · rw [if_pos hbv]
            exact le_trans (h.leU a ha) hndLe
          · rw [if_neg hbv]
            exact h.visLe a b ha hb
        · intro x hpx
          rw [hpAt x] at hpx
          by_cases hx : x = v
          · subst hx
            rw [if_pos rfl] at hpx
            rw [hpAt x, if_pos rfl]
            refine ⟨by rw [hvAt u]; exact h.uVis, w, harc, ?_⟩
            rw [hdAt x, if_pos rfl, hdVis u h.uVis]
            rfl
          · rw [if_neg hx] at hpx
            obtain ⟨hvis, w', harc', heq⟩ := h.prevP x hpx
            rw [hpAt x, if_neg hx]
            refine ⟨by rw [hvAt _]; exact hvis, w', harc', ?_⟩
            rw [hdAt x, if_neg hx, hdVis _ hvis]
            exact heq
        · intro x hpx hxs
          rw [hpAt x] at hpx
          by_cases hx : x = v
          · rw [if_pos hx] at hpx
            exact absurd hpx h.uNe0
          · rw [if_neg hx] at hpx
            rw [hdAt x, if_neg hx]
            exact h.unset x hpx hxs
        · intro x hpx
          rw [hpAt x] at hpx
          by_cases hx : x = v
          · subst hx
            rw [if_pos rfl] at hpx
            rcases h.chainU with hus | ⟨m, hreach, hbound⟩
            · refine ⟨1, Or.inr ⟨?_, ?_, ?_⟩, ?_⟩
              · rw [hpAt x, if_pos rfl]
                exact h.uNe0
              · rw [hpAt x, if_pos rfl, hvAt u]
                exact h.uVis
              · show pAt st' x = startId
                rw [hpAt x, if_pos rfl]
                exact hus
              · rw [hcnt]
                have hulen : u < st.visited.length := by
                  rw [h.lenV]
                  have := h.uN
                  omega
                have := countP_notb_lt_of_true st.visited u h.uVis hulen
                rw [h.lenV] at this
                show 1 + unvisCount st ≤ N + 1
                unfold unvisCount
                omega
            · refine ⟨m + 1, Or.inr ⟨?_, ?_, ?_⟩, ?_⟩
              · rw [hpAt x, if_pos rfl]
                exact h.uNe0
              · rw [hpAt x, if_pos rfl, hvAt u]
                exact h.uVis
              · have hstb := @chainReaches_stable st st' startId hmono m u hreach
                  (hmono u h.uVis).1
                rw [hpAt x, if_pos rfl]
                exact hstb
              · rw [hcnt]
                omega
          · rw [if_neg hx] at hpx
            obtain ⟨n, hreach, hbound⟩ := h.chain x hpx
            refine ⟨n, @chainReaches_stable st st' startId hmono n x hreach ?_, ?_⟩
            · rw [hpAt x, if_neg hx]
            · rw [hcnt]
              exact hbound
        · intro a ha hau x wx harcx
          rw [hvAt a] at ha
          rw [hdVis a ha]
          calc dAt st' x ≤ dAt st x := hdLe x
            _ ≤ dAt st a + (wx : WithTop ℝ) := h.relaxedOld a ha hau x wx harcx
        · intro vw' hvw'
          rcases List.mem_append.mp hvw' with hold | hnew
          · calc dAt st' vw'.1 ≤ dAt st vw'.1 := hdLe _
              _ ≤ dAt st u + ((vw'.2 : ℝ) : WithTop ℝ) := h.relaxedU vw' hold
              _ = dAt st' u + ((vw'.2 : ℝ) : WithTop ℝ) := by rw [hdVis u h.uVis]
          · simp only [List.mem_singleton] at hnew
            subst hnew
            rw [hdAt v, if_pos rfl, hdVis u h.uVis]
            exact le_of_eq rfl
        · rw [hvAt u]
          exact h.uVis
        · intro b hb
          rw [hvAt b] at hb
          rw [hdVis u h.uVis, hdAt b]
          by_cases hbv : b = v
          · rw [if_pos hbv]
            exact hndLe
          · rw [if_neg hbv]
            exact h.uLe b hb
        · intro a ha
          rw [hvAt a] at ha
          rw [hdVis a ha, hdVis u h.uVis]
          exact h.leU a ha
        · rcases h.chainU with hus | ⟨m, hreach, hbound⟩
          · exact Or.inl hus
          · refine Or.inr ⟨m, @chainReaches_stable st st' startId hmono m u hreach
              (hmono u h.uVis).1, ?_⟩
            rw [hcnt]
            exact hbound
      · -- no update
        have hstep : relaxStep u st (v, w) = st := by
          simp only [relaxStep, hget]
          rw [if_neg hlt]
        rw [hstep]
        refine ⟨⟨h.toCore, h.relaxedOld, ?_, h.uVis, h.uLe, h.leU, h.uNe0, h.uNeEnd,
          h.uN, h.chainU⟩, rfl⟩
        intro vw' hvw'
        rcases List.mem_append.mp hvw' with hold | hnew
        · exact h.relaxedU vw' hold
        · simp only [List.mem_singleton] at hnew
          subst hnew
          rw [hdv]
          exact not_lt.mp hlt

theorem relaxArcs_mid {adj : ℕ → List (ℕ × ℝ)} {startId endId N u : ℕ}
    (hwf : AdjWF adj N) :
    ∀ (suffix processed : List (ℕ × ℝ)) (st : DijkstraState),
      processed ++ suffix = adj u →
      Mid adj startId endId N u processed st →
      Mid adj startId endId N u (adj u) (suffix.foldl (relaxStep u) st) ∧
      (suffix.foldl (relaxStep u) st).visited = st.visited := by
  intro suffix
  induction suffix with
  | nil =>
      intro processed st happ h
      rw [List.append_nil] at happ
      subst happ
      exact ⟨h, rfl⟩
  | cons vw rest ih =>
      intro processed st happ h
      have harc : vw ∈ adj u := by
        rw [← happ]
        exact List.mem_append.mpr (Or.inr (List.mem_cons_self _ _))
      obtain ⟨h1, hv1⟩ := relaxStep_mid hwf harc h
      have happ2 : (processed ++ [vw]) ++ rest = adj u := by
        rw [List.append_assoc, List.singleton_append]
        exact happ
      obtain ⟨h2, hv2⟩ := ih (processed ++ [vw]) (relaxStep u st vw) happ2 h1
      rw [List.foldl_cons]
      exact ⟨h2, by rw [hv2, hv1]⟩

theorem mid_full_inv {adj : ℕ → List (ℕ × ℝ)} {startId endId N u : ℕ}
    {st : DijkstraState} (h : Mid adj startId endId N u (adj u) st) :
    Inv adj startId endId N st := by
  refine ⟨h.toCore, ?_⟩
  intro a ha v w harc
  by_cases hau : a = u
  · subst hau
    exact h.relaxedU (v, w) harc
  · exact h.relaxedOld a ha hau v w harc

/-- One full iteration: select `u`, mark it visited, relax its row; the
invariant is preserved and the number of unvisited nodes drops by one. -/
theorem dijkstra_iter {adj : ℕ → List (ℕ × ℝ)} {startId endId N : ℕ}
    {st : DijkstraState} {u : ℕ} (hwf : AdjWF adj N)
    (hinv : Inv adj startId endId N st)
    (hmin : findMinLoop st.dist st.visited N = some u) (hne : u ≠ endId) :
    Inv adj startId endId N
      (relaxArcs (adj u) u { st with visited := st.visited.set u true }) ∧
    unvisCount (relaxArcs (adj u) u { st with visited := st.visited.set u true }) + 1 =
      unvisCount st := by
  obtain ⟨hmid, hcnt⟩ := visit_mid hinv hmin hne
  obtain ⟨hfull, hvis⟩ := relaxArcs_mid hwf (adj u) [] _ (List.nil_append _) hmid
  refine ⟨mid_full_inv hfull, ?_⟩
  have hcc : unvisCount (relaxArcs (adj u) u { st with visited := st.visited.set u true }) =
      unvisCount { st with visited := st.visited.set u true } := by
    unfold unvisCount
    rw [show (relaxArcs (adj u) u { st with visited := st.visited.set u true }).visited =
      ({ st with visited := st.visited.set u true } : DijkstraState).visited from hvis]
  rw [hcc]
  exact hcnt

/-- The unfolding equation of one loop step. -/
theorem dijkstraLoop_succ (adj : ℕ → List (ℕ × ℝ)) (endId N fuel : ℕ)
    (st : DijkstraState) :
    dijkstraLoop adj endId N (fuel + 1) st =
      match findMinLoop st.dist st.visited N with
      | none => st
      | some u =>
          if u = endId then st
          else dijkstraLoop adj endId N fuel
            (relaxArcs (adj u) u { st with visited := st.visited.set u true }) := rfl

/-- The main loop, run with enough fuel from an invariant state, ends in an
invariant state in which the end node's tentative distance is a lower bound
for every unvisited slot. -/
theorem dijkstraLoop_spec {adj : ℕ → List (ℕ × ℝ)} {startId endId N : ℕ}
    (hwf : AdjWF adj N) (hend : endId ≤ N) :
    ∀ (fuel : ℕ) (st : DijkstraState), Inv adj startId endId N st →
      unvisCount st ≤ fuel →
      Inv adj startId endId N (dijkstraLoop adj endId N fuel st) ∧
      ∀ j, j ≤ N → vAt (dijkstraLoop adj endId N fuel st) j = false →
        dAt (dijkstraLoop adj endId N fuel st) endId ≤
          dAt (dijkstraLoop adj endId N fuel st) j := by
  intro fuel
  induction fuel with
  | zero =>
      intro st hinv hfuel
      exfalso
      have hlen : endId < st.visited.length := by rw [hinv.lenV]; omega
      have := countP_notb_pos st.visited endId hinv.vend hlen
      have hcc : unvisCount st = st.visited.countP (fun b => !b) := rfl
      omega
  | succ fuel ih =>
      intro st hinv hfuel
      cases hmin : findMinLoop st.dist st.visited N with
      | none =>
          have hred : dijkstraLoop adj endId N (fuel + 1) st = st := by
            rw [dijkstraLoop_succ]
            simp only [hmin]
          rw [hred]
          refine ⟨hinv, fun j hj hv => ?_⟩
          have h2 : dAt st j = ⊤ := findMinLoop_none hmin j hj hv
          rw [h2]
          exact le_top
      | some u =>
          by_cases hu : u = endId
          · have hred : dijkstraLoop adj endId N (fuel + 1) st = st := by
              rw [dijkstraLoop_succ]
              simp only [hmin]
              rw [if_pos hu]
            rw [hred]
            obtain ⟨huN, huUnvis, huLt, humin⟩ := findMinLoop_some hmin
            refine ⟨hinv, fun j hj hv => ?_⟩
            rw [← hu]
            exact humin j hj hv
          · have hred : dijkstraLoop adj endId N (fuel + 1) st =
                dijkstraLoop adj endId N fuel
                  (relaxArcs (adj u) u { st with visited := st.visited.set u true }) := by
              rw [dijkstraLoop_succ]
              simp only [hmin]
              rw [if_neg hu]
            rw [hred]
            obtain ⟨hinv2, hcnt⟩ := dijkstra_iter hwf hinv hmin hu
            have hucount : 1 ≤ unvisCount st := by
              obtain ⟨huN, huUnvis, _, _⟩ := findMinLoop_some hmin
              have hlen : u < st.visited.length := by rw [hinv.lenV]; omega
              exact countP_notb_pos st.visited u huUnvis hlen
            exact ih _ hinv2 (by omega)

/-- In a relaxed state where the end distance bounds every unvisited slot,
the end distance bounds the cost of every path from the start: the cut
argument. -/
theorem dijkstra_cut {adj : ℕ → List (ℕ × ℝ)} {startId endId N : ℕ}
    {st : DijkstraState} (hwf : AdjWF adj N)
    (hinv : Inv adj startId endId N st)
    (hpost : ∀ j, j ≤ N → vAt st j = false → dAt st endId ≤ dAt st j) :
    ∀ (l : List ℕ) (c : ℝ), ListPathCost adj l c → l.getLast? = some endId →
      ∀ u, l.head? = some u → u ≤ N →
        dAt st endId ≤ dAt st u + (c : WithTop ℝ) := by
  intro l c hpath
  induction hpath with
  | single x =>
      intro hlast u hu huN
      simp only [List.getLast?_singleton, Option.some.injEq] at hlast
      simp only [List.head?_cons, Option.some.injEq] at hu
      subst hlast
      subst hu
      rw [show ((0 : ℝ) : WithTop ℝ) = 0 from rfl, add_zero]
  | @cons a v rest w c1 harc hrest ih =>
      intro hlast u hu huN
      simp only [List.head?_cons, Option.some.injEq] at hu
      subst hu
      have hlast' : (v :: rest).getLast? = some endId := by
        rw [← hlast]
        exact List.getLast?_cons_cons.symm
      have hvN : v ≤ N := (hwf a v w harc).1.2
      have hih := ih hlast' v (by simp) hvN
      cases hvu : vAt st a with
      | true =>
          have hrel : dAt st v ≤ dAt st a + (w : WithTop ℝ) :=
            hinv.relaxed a hvu v w harc
          calc dAt st endId ≤ dAt st v + (c1 : WithTop ℝ) := hih
            _ ≤ (dAt st a + (w : WithTop ℝ)) + (c1 : WithTop ℝ) :=
                add_le_add_right hrel _
            _ = dAt st a + ((w + c1 : ℝ) : WithTop ℝ) := by
                rw [WithTop.coe_add, add_assoc]
      | false =>
          have h1 : dAt st endId ≤ dAt st a := hpost a huN hvu
          have h2 : (0 : WithTop ℝ) ≤ ((w + c1 : ℝ) : WithTop ℝ) := by
            have hw := (hwf a v w harc).2
            have hc := ListPathCost_nonneg hwf hrest
            exact_mod_cast add_nonneg hw hc
          calc dAt st endId ≤ dAt st a := h1
            _ ≤ dAt st a + ((w + c1 : ℝ) : WithTop ℝ) := le_add_of_nonneg_right h2

/-- The predecessor walk from a node whose chain reaches the start produces,
once reversed, a path of the adjacency structure from the start to the node
whose cost is exactly the node's tentative distance. -/
theorem walkPrev_spec {adj : ℕ → List (ℕ × ℝ)} {startId endId N : ℕ}
    {st : DijkstraState} (h : Core adj startId endId N st) (hs0 : startId ≠ 0) :
    ∀ (n : ℕ) (v : ℕ), chainReaches st startId n v → v ≠ 0 →
      ∀ fuel, n + 1 ≤ fuel →
        ∃ c : ℝ, ListPathCost adj (walkPrev st.prev startId fuel v).reverse c ∧
          (walkPrev st.prev startId fuel v).reverse.head? = some startId ∧
          (walkPrev st.prev startId fuel v).reverse.getLast? = some v ∧
          dAt st v = (c : WithTop ℝ) := by
  intro n
  induction n with
  | zero =>
      intro v hreach hv0 fuel hfuel
      have hvs : v = startId := hreach
      subst hvs
      obtain ⟨fuel', rfl⟩ : ∃ f, fuel = f + 1 :=
        ⟨fuel - 1, by omega⟩
      have hw : walkPrev st.prev v (fuel' + 1) v = [v] := by
        rw [walkPrev]
        rw [if_neg hv0, if_pos rfl]
      rw [hw]
      refine ⟨0, ?_, ?_, ?_, ?_⟩
      · simpa using ListPathCost.single v
      · simp
      · simp
      · rw [h.start0]
        rfl
  | succ n ihn =>
      intro v hreach hv0 fuel hfuel
      rcases hreach with hvs | ⟨hp, hvis, hchain⟩
      · subst hvs
        obtain ⟨fuel', rfl⟩ : ∃ f, fuel = f + 1 :=
          ⟨fuel - 1, by omega⟩
        have hw : walkPrev st.prev v (fuel' + 1) v = [v] := by
          rw [walkPrev]
          rw [if_neg hv0, if_pos rfl]
        rw [hw]
        refine ⟨0, ?_, ?_, ?_, ?_⟩
        · simpa using ListPathCost.single v
        · simp
        · simp
        · rw [h.start0]
          rfl
      · have hvs : v ≠ startId := by
          intro hh
          rw [hh] at hp
          exact hp h.pstart
        obtain ⟨fuel', rfl⟩ : ∃ f, fuel = f + 1 :=
          ⟨fuel - 1, by omega⟩
        have hw : walkPrev st.prev startId (fuel' + 1) v =
            v :: walkPrev st.prev startId fuel' (pAt st v) := by
          rw [walkPrev]
          rw [if_neg hv0, if_neg hvs]
          rfl
        have hp0 : pAt st v ≠ 0 := hp
        obtain ⟨hpvis, w, harc, heq⟩ := h.prevP v hp0
        obtain ⟨c, hpath, hhead, hlast, hdist⟩ :=
          ihn (pAt st v) hchain hp0 fuel' (by omega)
        rw [hw]
        have hne : (walkPrev st.prev startId fuel' (pAt st v)).reverse ≠ [] := by
          intro hh
          rw [hh] at hhead
          simp at hhead
        refine ⟨c + w, ?_, ?_, ?_, ?_⟩
        · rw [List.reverse_cons]
          exact ListPathCost_append_arc hpath hlast harc
        · rw [List.reverse_cons, List.head?_append_of_ne_nil _ hne]
          exact hhead
        · rw [List.reverse_cons, List.getLast?_concat]
        · rw [heq, hdist]
          rw [← WithTop.coe_add]

/-- Everything returned by a successful `findShortestPath` run: the path
endpoints, the arc-by-arc decomposition with its exact cost, and minimality
of that cost. Shared between the correctness and lower-bound results. -/
theorem findShortestPath_spec_aux {g : Graph} {startId endId : ℕ}
    {res : List ℕ × WithTop ℝ}
    (hwf : AdjWF (adjOf g) (g.nextId - 1))
    (hs1 : 1 ≤ startId) (hsN : startId ≤ g.nextId - 1)
    (he1 : 1 ≤ endId) (heN : endId ≤ g.nextId - 1)
    (hres : findShortestPath startId endId g = some res) :
    res.1.head? = some startId ∧ res.1.getLast? = some endId ∧
    ∃ c : ℝ, ListPathCost (adjOf g) res.1 c ∧ res.2 = ((c : ℝ) : WithTop ℝ) ∧
      ∀ (l : List ℕ) (c' : ℝ), ListPathCost (adjOf g) l c' →
        l.head? = some startId → l.getLast? = some endId → c ≤ c' := by
  have hinv0 := Inv_init (adjOf g) startId endId (g.nextId - 1) hs1 hsN
  have hcnt0 : unvisCount
      (⟨(List.replicate (g.nextId - 1 + 1) (⊤ : WithTop ℝ)).set startId 0,
        List.replicate (g.nextId - 1 + 1) 0,
        List.replicate (g.nextId - 1 + 1) false⟩ : DijkstraState) ≤
      g.nextId - 1 + 1 := by
    unfold unvisCount
    calc (List.replicate (g.nextId - 1 + 1) false).countP (fun b => !b) ≤
        (List.replicate (g.nextId - 1 + 1) false).length := List.countP_le_length _
      _ = g.nextId - 1 + 1 := List.length_replicate _ _
  obtain ⟨hinvF, hpost⟩ :=
    dijkstraLoop_spec hwf heN (g.nextId - 1 + 1) _ hinv0 hcnt0
  have hfinal : dijkstraFinal startId endId g =
      dijkstraLoop (adjOf g) endId (g.nextId - 1) (g.nextId - 1 + 1)
        ⟨(List.replicate (g.nextId - 1 + 1) (⊤ : WithTop ℝ)).set startId 0,
          List.replicate (g.nextId - 1 + 1) 0,
          List.replicate (g.nextId - 1 + 1) false⟩ := rfl
  rw [← hfinal] at hinvF hpost
  have hunf : findShortestPath startId endId g =
      if (dijkstraFinal startId endId g).prev.getD endId 0 = 0 then none
      else some
        ((walkPrev (dijkstraFinal startId endId g).prev startId
          (g.nextId - 1 + 2) endId).reverse,
         (dijkstraFinal startId endId g).dist.getD endId ⊤) := rfl
  rw [hunf] at hres
  by_cases hc : (dijkstraFinal startId endId g).prev.getD endId 0 = 0
  · rw [if_pos hc] at hres
    exact absurd hres (by simp)
  · rw [if_neg hc] at hres
    have hres' := Option.some.inj hres
    subst hres'
    have hpne : pAt (dijkstraFinal startId endId g) endId ≠ 0 := hc
    obtain ⟨n, hreach, hbound⟩ := hinvF.chain endId hpne
    have hs0 : startId ≠ 0 := by omega
    have he0 : endId ≠ 0 := by omega
    obtain ⟨c, hpath, hhead, hlast, hdist⟩ :=
      walkPrev_spec hinvF.toCore hs0 n endId hreach he0 (g.nextId - 1 + 2)
        (by omega)
    refine ⟨hhead, hlast, c, hpath, hdist, ?_⟩
    intro l c' hl hhl hll
    have hcut := dijkstra_cut hwf hinvF hpost l c' hl hll startId hhl hsN
    rw [hinvF.start0, zero_add] at hcut
    have hdd : dAt (dijkstraFinal startId endId g) endId =
        ((c : ℝ) : WithTop ℝ) := hdist
    rw [hdd] at hcut
    exact_mod_cast hcut

/-- C2: whenever `findShortestPath` returns a result on a graph whose arcs
have nonnegative weights and stay inside the node range, the returned path
runs from the start id to the end id along arcs of the graph, the returned
meters is exactly the sum of the traversed arc weights, and that sum is
minimal among all start-to-end paths. -/
theorem findShortestPath_correct {g : Graph} {startId endId : ℕ}
    {res : List ℕ × WithTop ℝ}
    (hwf : AdjWF (adjOf g) (g.nextId - 1))
    (hs1 : 1 ≤ startId) (hsN : startId ≤ g.nextId - 1)
    (he1 : 1 ≤ endId) (heN : endId ≤ g.nextId - 1)
    (hres : findShortestPath startId endId g = some res) :
    res.1.head? = some startId ∧ res.1.getLast? = some endId ∧
    ∃ c : ℝ, ListPathCost (adjOf g) res.1 c ∧ res.2 = ((c : ℝ) : WithTop ℝ) ∧
      ∀ (l : List ℕ) (c' : ℝ), ListPathCost (adjOf g) l c' →
        l.head? = some startId → l.getLast? = some endId → c ≤ c' :=
  findShortestPath_spec_aux hwf hs1 hsN he1 heN hres

/-- A two-node graph with one arc in each direction, the evaluation vehicle
for the solver. -/
noncomputable def gTwo (w12 w21 : ℝ) (c1 c2 : ℚ × ℚ) : Graph :=
  { nextId := 3
    nodes := [(coordKey c1.1 c1.2, 1), (coordKey c2.1 c2.2, 2)]
    coords := [(1, c1), (2, c2)]
    adj := [(1, [(2, w12)]), (2, [(1, w21)])]
    segments := [] }

theorem adjWF_gTwo {w12 w21 : ℝ} (h1 : 0 ≤ w12) (h2 : 0 ≤ w21)
    (c1 c2 : ℚ × ℚ) : AdjWF (adjOf (gTwo w12 w21 c1 c2)) 2 := by
  intro u v w h
  by_cases hu1 : u = 1
  · subst hu1
    have ha : adjOf (gTwo w12 w21 c1 c2) 1 = [(2, w12)] := by
      simp [adjOf, gTwo, alistGet?]
    rw [ha] at h
    simp only [List.mem_singleton, Prod.mk.injEq] at h
    obtain ⟨rfl, rfl⟩ := h
    exact ⟨⟨by omega, by omega⟩, h1⟩
  · by_cases hu2 : u = 2
    · subst hu2
      have ha : adjOf (gTwo w12 w21 c1 c2) 2 = [(1, w21)] := by
        simp [adjOf, gTwo, alistGet?]
      rw [ha] at h
      simp only [List.mem_singleton, Prod.mk.injEq] at h
      obtain ⟨rfl, rfl⟩ := h
      exact ⟨⟨by omega, by omega⟩, h2⟩
    · have ha : adjOf (gTwo w12 w21 c1 c2) u = [] := by
        simp [adjOf, gTwo, alistGet?, Ne.symm hu1, Ne.symm hu2]
      rw [ha] at h
      simp at h

theorem findShortestPath_gTwo (w12 w21 : ℝ) (c1 c2 : ℚ × ℚ) :
    findShortestPath 1 2 (gTwo w12 w21 c1 c2) =
      some ([1, 2], ((w12 : ℝ) : WithTop ℝ)) := by
  have h0t : (0 : WithTop ℝ) < ⊤ := WithTop.coe_lt_top 0
  have hwt : ((w12 : ℝ) : WithTop ℝ) < ⊤ := WithTop.coe_lt_top w12
  have hm1 : findMinLoop [⊤, (0 : WithTop ℝ), ⊤] [false, false, false] 2 =
      some 1 := by
    simp [findMinLoop, List.range_succ, h0t, not_top_lt]
  have hadj1 : adjOf (gTwo w12 w21 c1 c2) 1 = [(2, w12)] := by
    simp [adjOf, gTwo, alistGet?]
  have hrelax : relaxArcs [(2, w12)] 1
      ⟨[⊤, 0, ⊤], [0, 0, 0], [false, true, false]⟩ =
      ⟨[⊤, 0, ((w12 : ℝ) : WithTop ℝ)], [0, 0, 1], [false, true, false]⟩ := by
    simp [relaxArcs, relaxStep, hwt]
  have hm2 : findMinLoop [⊤, (0 : WithTop ℝ), ((w12 : ℝ) : WithTop ℝ)]
      [false, true, false] 2 = some 2 := by
    simp [findMinLoop, List.range_succ, hwt, not_top_lt]
  have hloop : dijkstraFinal 1 2 (gTwo w12 w21 c1 c2) =
      ⟨[⊤, 0, ((w12 : ℝ) : WithTop ℝ)], [0, 0, 1], [false, true, false]⟩ := by
    show dijkstraLoop (adjOf (gTwo w12 w21 c1 c2)) 2 2 3
      ⟨(List.replicate 3 (⊤ : WithTop ℝ)).set 1 0,
        List.replicate 3 0, List.replicate 3 false⟩ = _
    have hst0 : (⟨(List.replicate 3 (⊤ : WithTop ℝ)).set 1 0,
        List.replicate 3 0, List.replicate 3 false⟩ : DijkstraState) =
        ⟨[⊤, 0, ⊤], [0, 0, 0], [false, false, false]⟩ := rfl
    rw [hst0]
    rw [show (3 : ℕ) = 2 + 1 from rfl, dijkstraLoop_succ]
    simp only [hm1]
    rw [if_neg (by omega : (1 : ℕ) ≠ 2)]
    have hst1 : ({ (⟨[⊤, 0, ⊤], [0, 0, 0], [false, false, false]⟩ : DijkstraState)
        with visited := [false, false, false].set 1 true } : DijkstraState) =
        ⟨[⊤, 0, ⊤], [0, 0, 0], [false, true, false]⟩ := rfl
    rw [hst1, hadj1, hrelax]
    rw [show (2 : ℕ) = 1 + 1 from rfl, dijkstraLoop_succ]
    simp only [hm2]
    rw [if_true]
  have hunf : findShortestPath 1 2 (gTwo w12 w21 c1 c2) =
      if (dijkstraFinal 1 2 (gTwo w12 w21 c1 c2)).prev.getD 2 0 = 0 then none
      else some
        ((walkPrev (dijkstraFinal 1 2 (gTwo w12 w21 c1 c2)).prev 1 4 2).reverse,
         (dijkstraFinal 1 2 (gTwo w12 w21 c1 c2)).dist.getD 2 ⊤) := rfl
  rw [hunf, hloop]
  rw [if_neg (by simp : ¬([0, 0, 1] : List ℕ).getD 2 0 = 0)]
  have hwalk : walkPrev [0, 0, 1] 1 4 2 = [2, 1] := by
    simp [walkPrev]
  rw [hwalk]
  simp

theorem findShortestPath_correct_witness :
    AdjWF (adjOf (gTwo (1 : ℝ) 1 (0, 0) (0, 1))) 2 ∧
    findShortestPath 1 2 (gTwo (1 : ℝ) 1 (0, 0) (0, 1)) =
      some ([1, 2], (((1 : ℝ) : ℝ) : WithTop ℝ)) ∧
    (([1, 2] : List ℕ).head? = some 1 ∧
      ([1, 2] : List ℕ).getLast? = some 2 ∧
      ∃ c : ℝ, ListPathCost (adjOf (gTwo (1 : ℝ) 1 (0, 0) (0, 1))) [1, 2] c ∧
        (([1, 2], ((1 : ℝ) : WithTop ℝ)) : List ℕ × WithTop ℝ).2 =
          ((c : ℝ) : WithTop ℝ) ∧
        ∀ (l : List ℕ) (c' : ℝ),
          ListPathCost (adjOf (gTwo (1 : ℝ) 1 (0, 0) (0, 1))) l c' →
          l.head? = some 1 → l.getLast? = some 2 → c ≤ c') :=
  ⟨adjWF_gTwo zero_le_one zero_le_one (0, 0) (0, 1),
   findShortestPath_gTwo 1 1 (0, 0) (0, 1),
   findShortestPath_correct (adjWF_gTwo zero_le_one zero_le_one (0, 0) (0, 1))
     (by norm_num) (by norm_num [gTwo]) (by norm_num) (by norm_num [gTwo])
     (findShortestPath_gTwo 1 1 (0, 0) (0, 1))⟩

/-- C4 (amended): the solver fails exactly when the end node's predecessor
slot is still 0 after the search; since the start node's predecessor is never
set, `startId = endId` always fails, contradicting the claim's second half. -/
theorem findShortestPath_none_iff {g : Graph} {startId endId : ℕ}
    (hwf : AdjWF (adjOf g) (g.nextId - 1))
    (hs1 : 1 ≤ startId) (hsN : startId ≤ g.nextId - 1)
    (heN : endId ≤ g.nextId - 1) :
    (findShortestPath startId endId g = none ↔
      pAt (dijkstraFinal startId endId g) endId = 0) ∧
    (startId = endId → findShortestPath startId endId g = none) := by
  have hunf : findShortestPath startId endId g =
      if (dijkstraFinal startId endId g).prev.getD endId 0 = 0 then none
      else some
        ((walkPrev (dijkstraFinal startId endId g).prev startId
          (g.nextId - 1 + 2) endId).reverse,
         (dijkstraFinal startId endId g).dist.getD endId ⊤) := rfl
  have hiff : findShortestPath startId endId g = none ↔
      pAt (dijkstraFinal startId endId g) endId = 0 := by
    rw [hunf]
    by_cases hc : (dijkstraFinal startId endId g).prev.getD endId 0 = 0
    · rw [if_pos hc]
      exact ⟨fun _ => hc, fun _ => rfl⟩
    · rw [if_neg hc]
      exact ⟨fun hh => absurd hh (by simp), fun hh => absurd hh hc⟩
  refine ⟨hiff, fun hse => ?_⟩
  subst hse
  have hinv0 := Inv_init (adjOf g) startId startId (g.nextId - 1) hs1 hsN
  have hcnt0 : unvisCount
      (⟨(List.replicate (g.nextId - 1 + 1) (⊤ : WithTop ℝ)).set startId 0,
        List.replicate (g.nextId - 1 + 1) 0,
        List.replicate (g.nextId - 1 + 1) false⟩ : DijkstraState) ≤
      g.nextId - 1 + 1 := by
    unfold unvisCount
    calc (List.replicate (g.nextId - 1 + 1) false).countP (fun b => !b) ≤
        (List.replicate (g.nextId - 1 + 1) false).length := List.countP_le_length _
      _ = g.nextId - 1 + 1 := List.length_replicate _ _
  obtain ⟨hinvF, _⟩ :=
    dijkstraLoop_spec hwf heN (g.nextId - 1 + 1) _ hinv0 hcnt0
  have hfinal : dijkstraFinal startId startId g =
      dijkstraLoop (adjOf g) startId (g.nextId - 1) (g.nextId - 1 + 1)
        ⟨(List.replicate (g.nextId - 1 + 1) (⊤ : WithTop ℝ)).set startId 0,
          List.replicate (g.nextId - 1 + 1) 0,
          List.replicate (g.nextId - 1 + 1) false⟩ := rfl
  rw [← hfinal] at hinvF
  exact hiff.mpr hinvF.pstart

/-- C4 counterexample: node id 1 is present in this two-node graph, yet the
solver called with `startId = endId = 1` returns failure rather than the
trivial path. -/
theorem startId_eq_endId_returns_none :
    alistGet? 1 (gTwo (1 : ℝ) 1 (0, 0) (0, 1)).coords = some (0, 0) ∧
    findShortestPath 1 1 (gTwo (1 : ℝ) 1 (0, 0) (0, 1)) = none := by
  constructor
  · simp [gTwo, alistGet?]
  · have h0t : (0 : WithTop ℝ) < ⊤ := WithTop.coe_lt_top 0
    have hm1 : findMinLoop [⊤, (0 : WithTop ℝ), ⊤] [false, false, false] 2 =
        some 1 := by
      simp [findMinLoop, List.range_succ, h0t, not_top_lt]
    have hloop : dijkstraFinal 1 1 (gTwo (1 : ℝ) 1 (0, 0) (0, 1)) =
        ⟨[⊤, 0, ⊤], [0, 0, 0], [false, false, false]⟩ := by
      show dijkstraLoop (adjOf (gTwo (1 : ℝ) 1 (0, 0) (0, 1))) 1 2 3
        ⟨(List.replicate 3 (⊤ : WithTop ℝ)).set 1 0,
          List.replicate 3 0, List.replicate 3 false⟩ = _
      have hst0 : (⟨(List.replicate 3 (⊤ : WithTop ℝ)).set 1 0,
          List.replicate 3 0, List.replicate 3 false⟩ : DijkstraState) =
          ⟨[⊤, 0, ⊤], [0, 0, 0], [false, false, false]⟩ := rfl
      rw [hst0]
      rw [show (3 : ℕ) = 2 + 1 from rfl, dijkstraLoop_succ]
      simp only [hm1]
      rw [if_true]
    have hunf : findShortestPath 1 1 (gTwo (1 : ℝ) 1 (0, 0) (0, 1)) =
        if (dijkstraFinal 1 1 (gTwo (1 : ℝ) 1 (0, 0) (0, 1))).prev.getD 1 0 = 0
        then none
        else some
          ((walkPrev (dijkstraFinal 1 1 (gTwo (1 : ℝ) 1 (0, 0) (0, 1))).prev
            1 4 1).reverse,
           (dijkstraFinal 1 1 (gTwo (1 : ℝ) 1 (0, 0) (0, 1))).dist.getD 1 ⊤) :=
      rfl
    rw [hunf, hloop]
    rw [if_pos (by simp : ([0, 0, 0] : List ℕ).getD 1 0 = 0)]

theorem findShortestPath_none_iff_witness :
    AdjWF (adjOf (gTwo (2 : ℝ) 2 (0, 0) (1, 1))) 2 ∧
    ((findShortestPath 1 1 (gTwo (2 : ℝ) 2 (0, 0) (1, 1)) = none ↔
      pAt (dijkstraFinal 1 1 (gTwo (2 : ℝ) 2 (0, 0) (1, 1))) 1 = 0) ∧
     (1 = 1 → findShortestPath 1 1 (gTwo (2 : ℝ) 2 (0, 0) (1, 1)) = none)) :=
  ⟨adjWF_gTwo (by norm_num) (by norm_num) (0, 0) (1, 1),
   findShortestPath_none_iff (adjWF_gTwo (by norm_num) (by norm_num) (0, 0) (1, 1))
     (by norm_num) (by norm_num [gTwo]) (by norm_num [gTwo])⟩

/-! ## C9: path length versus great-circle distance -/

/-- The unit vector of a latitude/longitude pair (radians) on the sphere. -/
noncomputable def sphPt (phi lam : ℝ) : EuclideanSpace ℝ (Fin 3) :=
  (WithLp.equiv 2 (Fin 3 → ℝ)).symm
    ![Real.cos phi * Real.cos lam, Real.cos phi * Real.sin lam, Real.sin phi]

/-- The unit vector of a `[lat, lon]` coordinate in degrees. -/
noncomputable def sphPtOf (p : ℚ × ℚ) : EuclideanSpace ℝ (Fin 3) :=
  sphPt (toRad ((p.1 : ℝ))) (toRad ((p.2 : ℝ)))

theorem sphPt_inner (phi1 lam1 phi2 lam2 : ℝ) :
    (inner (sphPt phi1 lam1) (sphPt phi2 lam2) : ℝ) =
      Real.cos phi1 * Real.cos phi2 * Real.cos (lam1 - lam2) +
        Real.sin phi1 * Real.sin phi2 := by
  rw [PiLp.inner_apply, Fin.sum_univ_three]
  show (Real.cos phi1 * Real.cos lam1) * (Real.cos phi2 * Real.cos lam2) +
    (Real.cos phi1 * Real.sin lam1) * (Real.cos phi2 * Real.sin lam2) +
    Real.sin phi1 * Real.sin phi2 = _
  rw [Real.cos_sub]
  ring

theorem sphPt_norm (phi lam : ℝ) : ‖sphPt phi lam‖ = 1 := by
  have h : (inner (sphPt phi lam) (sphPt phi lam) : ℝ) = 1 := by
    rw [sphPt_inner, sub_self, Real.cos_zero]
    linear_combination Real.sin_sq_add_cos_sq phi
  have h2 : (1 : ℝ) = ‖sphPt phi lam‖ ^ 2 := by
    rw [← h, real_inner_self_eq_norm_sq]
  have h3 : (‖sphPt phi lam‖ - 1) * (‖sphPt phi lam‖ + 1) = 0 := by nlinarith
  rcases mul_eq_zero.mp h3 with h4 | h4
  · linarith
  · have := norm_nonneg (sphPt phi lam)
    linarith

/-- The spherical triangle inequality for central angles between unit
vectors. -/
theorem arccos_inner_triangle (u v w : EuclideanSpace ℝ (Fin 3))
    (hu : ‖u‖ = 1) (hv : ‖v‖ = 1) (hw : ‖w‖ = 1) :
    Real.arccos (inner u w : ℝ) ≤
      Real.arccos (inner u v : ℝ) + Real.arccos (inner v w : ℝ) := by
  have habs1 : |(inner u v : ℝ)| ≤ 1 := by
    have := abs_real_inner_le_norm u v
    rw [hu, hv] at this
    simpa using this
  have habs2 : |(inner v w : ℝ)| ≤ 1 := by
    have := abs_real_inner_le_norm v w
    rw [hv, hw] at this
    simpa using this
  have huu : (inner u u : ℝ) = 1 := by
    rw [real_inner_self_eq_norm_sq, hu]
    norm_num
  have hvv : (inner v v : ℝ) = 1 := by
    rw [real_inner_self_eq_norm_sq, hv]
    norm_num
  have hww : (inner w w : ℝ) = 1 := by
    rw [real_inner_self_eq_norm_sq, hw]
    norm_num
  have hb1l : -1 ≤ (inner u v : ℝ) := (abs_le.mp habs1).1
  have hb1r : (inner u v : ℝ) ≤ 1 := (abs_le.mp habs1).2
  have hb2l : -1 ≤ (inner v w : ℝ) := (abs_le.mp habs2).1
  have hb2r : (inner v w : ℝ) ≤ 1 := (abs_le.mp habs2).2
  have hip : (inner (u - (inner u v : ℝ) • v) (w - (inner v w : ℝ) • v) : ℝ) =
      (inner u w : ℝ) - (inner u v : ℝ) * (inner v w : ℝ) := by
    simp only [inner_sub_left, inner_sub_right, real_inner_smul_left,
      real_inner_smul_right, real_inner_comm v u, real_inner_comm v w]
    rw [hvv]
    ring
  have hnu : ‖u - (inner u v : ℝ) • v‖ ^ 2 = 1 - (inner u v : ℝ) ^ 2 := by
    rw [← real_inner_self_eq_norm_sq]
    simp only [inner_sub_left, inner_sub_right, real_inner_smul_left,
      real_inner_smul_right, real_inner_comm v u]
    rw [huu, hvv]
    ring
  have hnw : ‖w - (inner v w : ℝ) • v‖ ^ 2 = 1 - (inner v w : ℝ) ^ 2 := by
    rw [← real_inner_self_eq_norm_sq]
    simp only [inner_sub_left, inner_sub_right, real_inner_smul_left,
      real_inner_smul_right, real_inner_comm v w]
    rw [hww, hvv]
    ring
  have hnu' : ‖u - (inner u v : ℝ) • v‖ = Real.sqrt (1 - (inner u v : ℝ) ^ 2) := by
    rw [← hnu, Real.sqrt_sq (norm_nonneg _)]
  have hnw' : ‖w - (inner v w : ℝ) • v‖ = Real.sqrt (1 - (inner v w : ℝ) ^ 2) := by
    rw [← hnw, Real.sqrt_sq (norm_nonneg _)]
  have hcs := abs_real_inner_le_norm (u - (inner u v : ℝ) • v)
    (w - (inner v w : ℝ) • v)
  rw [hip, hnu', hnw'] at hcs
  have hkey : (inner u v : ℝ) * (inner v w : ℝ) -
      Real.sqrt (1 - (inner u v : ℝ) ^ 2) *
        Real.sqrt (1 - (inner v w : ℝ) ^ 2) ≤ (inner u w : ℝ) := by
    have := (abs_le.mp hcs).1
    linarith
  have hcosadd : Real.cos (Real.arccos (inner u v : ℝ) +
      Real.arccos (inner v w : ℝ)) =
      (inner u v : ℝ) * (inner v w : ℝ) -
        Real.sqrt (1 - (inner u v : ℝ) ^ 2) *
          Real.sqrt (1 - (inner v w : ℝ) ^ 2) := by
    rw [Real.cos_add, Real.cos_arccos hb1l hb1r, Real.cos_arccos hb2l hb2r,
      Real.sin_arccos, Real.sin_arccos]
  by_cases hpi : Real.arccos (inner u v : ℝ) + Real.arccos (inner v w : ℝ) ≤
      Real.pi
  · have hge : Real.cos (Real.arccos (inner u v : ℝ) +
        Real.arccos (inner v w : ℝ)) ≤ (inner u w : ℝ) := by
      rw [hcosadd]
      exact hkey
    have hanti : Real.arccos (inner u w : ℝ) ≤
        Real.arccos (Real.cos (Real.arccos (inner u v : ℝ) +
          Real.arccos (inner v w : ℝ))) := by
      rw [Real.arccos_eq_pi_div_two_sub_arcsin, Real.arccos_eq_pi_div_two_sub_arcsin]
      have := Real.monotone_arcsin hge
      linarith
    rw [Real.arccos_cos
      (add_nonneg (Real.arccos_nonneg _) (Real.arccos_nonneg _)) hpi] at hanti
    exact hanti
  · push_neg at hpi
    have := Real.arccos_le_pi (inner u w : ℝ)
    linarith

/-- The half-angle identity used by the haversine formula. -/
theorem sin_sq_half (x : ℝ) : Real.sin (x / 2) ^ 2 = (1 - Real.cos x) / 2 := by
  have h := Real.cos_sq (x / 2)
  have h2 : 2 * (x / 2) = x := by ring
  rw [h2] at h
  have h3 := Real.sin_sq_add_cos_sq (x / 2)
  linarith

theorem two_arcsin_sqrt {d : ℝ} (h1 : -1 ≤ d) (h2 : d ≤ 1) :
    2 * Real.arcsin (Real.sqrt ((1 - d) / 2)) = Real.arccos d := by
  have hth0 : 0 ≤ Real.arccos d := Real.arccos_nonneg d
  have hthpi : Real.arccos d ≤ Real.pi := Real.arccos_le_pi d
  have hsin : Real.sin (Real.arccos d / 2) ^ 2 = (1 - d) / 2 := by
    have h := sin_sq_half (Real.arccos d)
    rw [Real.cos_arccos h1 h2] at h
    exact h
  have hsnn : 0 ≤ Real.sin (Real.arccos d / 2) :=
    Real.sin_nonneg_of_nonneg_of_le_pi (by linarith) (by linarith [Real.pi_pos])
  have hsqrt : Real.sqrt ((1 - d) / 2) = Real.sin (Real.arccos d / 2) := by
    rw [← hsin, Real.sqrt_sq hsnn]
  rw [hsqrt, Real.arcsin_sin (by linarith [Real.pi_pos]) (by linarith)]
  ring

theorem sphPtOf_inner_le (a b : ℚ × ℚ) : (inner (sphPtOf a) (sphPtOf b) : ℝ) ≤ 1 := by
  have h := abs_real_inner_le_norm (sphPtOf a) (sphPtOf b)
  rw [show sphPtOf a = sphPt (toRad ((a.1 : ℝ))) (toRad ((a.2 : ℝ))) from rfl,
    show sphPtOf b = sphPt (toRad ((b.1 : ℝ))) (toRad ((b.2 : ℝ))) from rfl,
    sphPt_norm, sphPt_norm] at h
  have := (abs_le.mp (by simpa using h)).2
  exact this

theorem sphPtOf_neg_one_le (a b : ℚ × ℚ) :
    -1 ≤ (inner (sphPtOf a) (sphPtOf b) : ℝ) := by
  have h := abs_real_inner_le_norm (sphPtOf a) (sphPtOf b)
  rw [show sphPtOf a = sphPt (toRad ((a.1 : ℝ))) (toRad ((a.2 : ℝ))) from rfl,
    show sphPtOf b = sphPt (toRad ((b.1 : ℝ))) (toRad ((b.2 : ℝ))) from rfl,
    sphPt_norm, sphPt_norm] at h
  exact (abs_le.mp (by simpa using h)).1

/-- The source's haversine formula computes the great-circle distance: Earth
radius times the central angle between the two unit vectors. -/
theorem haversine_eq_arccos (a b : ℚ × ℚ) :
    haversine a b = Rearth * Real.arccos (inner (sphPtOf a) (sphPtOf b) : ℝ) := by
  have hdot : (inner (sphPtOf a) (sphPtOf b) : ℝ) =
      Real.cos (toRad ((a.1 : ℝ))) * Real.cos (toRad ((b.1 : ℝ))) *
        Real.cos (toRad ((a.2 : ℝ)) - toRad ((b.2 : ℝ))) +
      Real.sin (toRad ((a.1 : ℝ))) * Real.sin (toRad ((b.1 : ℝ))) :=
    sphPt_inner _ _ _ _
  have hlin : ∀ x y : ℝ, toRad (x - y) = toRad x - toRad y := by
    intro x y
    unfold toRad
    ring
  have hb1 := sphPtOf_neg_one_le a b
  have hb2 := sphPtOf_inner_le a b
  show 2 * Rearth * Real.arcsin (Real.sqrt
    (Real.sin (toRad (((b.1 : ℚ) : ℝ) - ((a.1 : ℚ) : ℝ)) / 2) ^ 2 +
      Real.cos (toRad ((a.1 : ℝ))) * Real.cos (toRad ((b.1 : ℝ))) *
        Real.sin (toRad (((b.2 : ℚ) : ℝ) - ((a.2 : ℚ) : ℝ)) / 2) ^ 2)) = _
  have hs : Real.sin (toRad (((b.1 : ℚ) : ℝ) - ((a.1 : ℚ) : ℝ)) / 2) ^ 2 +
      Real.cos (toRad ((a.1 : ℝ))) * Real.cos (toRad ((b.1 : ℝ))) *
        Real.sin (toRad (((b.2 : ℚ) : ℝ) - ((a.2 : ℚ) : ℝ)) / 2) ^ 2 =
      (1 - (inner (sphPtOf a) (sphPtOf b) : ℝ)) / 2 := by
    rw [sin_sq_half, sin_sq_half, hdot, hlin, hlin, Real.cos_sub, Real.cos_sub, Real.cos_sub]
    ring
  rw [hs]
  rw [show 2 * Rearth * Real.arcsin (Real.sqrt
      ((1 - (inner (sphPtOf a) (sphPtOf b) : ℝ)) / 2)) =
    Rearth * (2 * Real.arcsin (Real.sqrt
      ((1 - (inner (sphPtOf a) (sphPtOf b) : ℝ)) / 2))) from by ring]
  rw [two_arcsin_sqrt hb1 hb2]

theorem haversine_triangle (a b c : ℚ × ℚ) :
    haversine a b ≤ haversine a c + haversine c b := by
  rw [haversine_eq_arccos, haversine_eq_arccos, haversine_eq_arccos, ← mul_add]
  refine mul_le_mul_of_nonneg_left ?_ (by norm_num [Rearth])
  exact arccos_inner_triangle (sphPtOf a) (sphPtOf c) (sphPtOf b)
    (sphPt_norm _ _) (sphPt_norm _ _) (sphPt_norm _ _)

theorem haversine_self (a : ℚ × ℚ) : haversine a a = 0 := by
  simp [haversine, toRad]

/-- Along any path whose arcs are weighted by the haversine distance of their
endpoint coordinates, the total cost dominates the haversine distance between
the path's two ends. -/
theorem pathCost_ge_haversine {adj : ℕ → List (ℕ × ℝ)} {cm : ℕ → ℚ × ℚ}
    (hW : ∀ u v w, (v, w) ∈ adj u → w = haversine (cm u) (cm v)) :
    ∀ (l : List ℕ) (c : ℝ), ListPathCost adj l c →
      ∀ a b, l.head? = some a → l.getLast? = some b →
        haversine (cm a) (cm b) ≤ c := by
  intro l c h
  induction h with
  | single u =>
      intro a b ha hb
      simp only [List.head?_cons, Option.some.injEq] at ha
      simp only [List.getLast?_singleton, Option.some.injEq] at hb
      subst ha
      subst hb
      exact le_of_eq (haversine_self _)
  | @cons u v rest w c1 harc hrest ih =>
      intro a b ha hb
      simp only [List.head?_cons, Option.some.injEq] at ha
      subst ha
      have hb' : (v :: rest).getLast? = some b := by
        rw [← hb]
        exact List.getLast?_cons_cons.symm
      have hih := ih v b (by simp) hb'
      have hwav : w = haversine (cm u) (cm v) := hW u v w harc
      have htri := haversine_triangle (cm u) (cm b) (cm v)
      linarith

/-- The association-list coordinate of a node, `(0, 0)` as the out-of-map
default. -/
def coordAt (g : Graph) (u : ℕ) : ℚ × ℚ := (alistGet? u g.coords).getD (0, 0)

/-- C9: on a graph whose arc weights are the haversine distances of their
endpoint coordinates, a successful `findShortestPath` run returns at least
the haversine great-circle distance between the start and end coordinates. -/
theorem findShortestPath_ge_haversine {g : Graph} {startId endId : ℕ}
    {res : List ℕ × WithTop ℝ}
    (hwf : AdjWF (adjOf g) (g.nextId - 1))
    (hs1 : 1 ≤ startId) (hsN : startId ≤ g.nextId - 1)
    (he1 : 1 ≤ endId) (heN : endId ≤ g.nextId - 1)
    (hW : ∀ u v w, (v, w) ∈ adjOf g u →
      w = haversine (coordAt g u) (coordAt g v))
    (hres : findShortestPath startId endId g = some res) :
    ((haversine (coordAt g startId) (coordAt g endId) : ℝ) : WithTop ℝ) ≤
      res.2 := by
  obtain ⟨hhead, hlast, c, hpath, hc2, _⟩ :=
    findShortestPath_spec_aux hwf hs1 hsN he1 heN hres
  have hge := pathCost_ge_haversine hW res.1 c hpath startId endId hhead hlast
  rw [hc2]
  exact_mod_cast hge

theorem findShortestPath_ge_haversine_witness :
    AdjWF (adjOf (gTwo (haversine (0, 0) (0, 1)) (haversine (0, 1) (0, 0))
      (0, 0) (0, 1))) 2 ∧
    (∀ u v w, (v, w) ∈ adjOf (gTwo (haversine (0, 0) (0, 1))
        (haversine (0, 1) (0, 0)) (0, 0) (0, 1)) u →
      w = haversine
        (coordAt (gTwo (haversine (0, 0) (0, 1)) (haversine (0, 1) (0, 0))
          (0, 0) (0, 1)) u)
        (coordAt (gTwo (haversine (0, 0) (0, 1)) (haversine (0, 1) (0, 0))
          (0, 0) (0, 1)) v)) ∧
    ((haversine
        (coordAt (gTwo (haversine (0, 0) (0, 1)) (haversine (0, 1) (0, 0))
          (0, 0) (0, 1)) 1)
        (coordAt (gTwo (haversine (0, 0) (0, 1)) (haversine (0, 1) (0, 0))
          (0, 0) (0, 1)) 2) : WithTop ℝ) ≤
      (([1, 2], ((haversine (0, 0) (0, 1) : ℝ) : WithTop ℝ)) :
        List ℕ × WithTop ℝ).2) := by
  have hwf : AdjWF (adjOf (gTwo (haversine (0, 0) (0, 1))
      (haversine (0, 1) (0, 0)) (0, 0) (0, 1))) 2 :=
    adjWF_gTwo (haversine_nonneg _ _) (haversine_nonneg _ _) (0, 0) (0, 1)
  have hc1 : coordAt (gTwo (haversine (0, 0) (0, 1)) (haversine (0, 1) (0, 0))
      (0, 0) (0, 1)) 1 = (0, 0) := by
    simp [coordAt, gTwo, alistGet?]
  have hc2 : coordAt (gTwo (haversine (0, 0) (0, 1)) (haversine (0, 1) (0, 0))
      (0, 0) (0, 1)) 2 = (0, 1) := by
    simp [coordAt, gTwo, alistGet?]
  have hW : ∀ u v w, (v, w) ∈ adjOf (gTwo (haversine (0, 0) (0, 1))
      (haversine (0, 1) (0, 0)) (0, 0) (0, 1)) u →
      w = haversine
        (coordAt (gTwo (haversine (0, 0) (0, 1)) (haversine (0, 1) (0, 0))
          (0, 0) (0, 1)) u)
        (coordAt (gTwo (haversine (0, 0) (0, 1)) (haversine (0, 1) (0, 0))
          (0, 0) (0, 1)) v) := by
    intro u v w h
    by_cases hu1 : u = 1
    · subst hu1
      have ha : adjOf (gTwo (haversine (0, 0) (0, 1)) (haversine (0, 1) (0, 0))
          (0, 0) (0, 1)) 1 = [(2, haversine (0, 0) (0, 1))] := by
        simp [adjOf, gTwo, alistGet?]
      rw [ha] at h
      simp only [List.mem_singleton, Prod.mk.injEq] at h
      obtain ⟨rfl, rfl⟩ := h
      rw [hc1, hc2]
    · by_cases hu2 : u = 2
      · subst hu2
        have ha : adjOf (gTwo (haversine (0, 0) (0, 1))
            (haversine (0, 1) (0, 0)) (0, 0) (0, 1)) 2 =
            [(1, haversine (0, 1) (0, 0))] := by
          simp [adjOf, gTwo, alistGet?]
        rw [ha] at h
        simp only [List.mem_singleton, Prod.mk.injEq] at h
        obtain ⟨rfl, rfl⟩ := h
        rw [hc1, hc2]
      · have ha : adjOf (gTwo (haversine (0, 0) (0, 1))
            (haversine (0, 1) (0, 0)) (0, 0) (0, 1)) u = [] := by
          simp [adjOf, gTwo, alistGet?, Ne.symm hu1, Ne.symm hu2]
        rw [ha] at h
        simp at h
  refine ⟨hwf, hW, ?_⟩
  exact findShortestPath_ge_haversine hwf (by norm_num) (by norm_num [gTwo])
    (by norm_num) (by norm_num [gTwo]) hW
    (findShortestPath_gTwo (haversine (0, 0) (0, 1)) (haversine (0, 1) (0, 0))
      (0, 0) (0, 1))

end VaarPro
